import Mathlib

/-!
Verification development for the ts-cache engine.

The TypeScript source is shallowly embedded: JavaScript objects holding the
cached entries become insertion-ordered association lists (assignment to an
existing key keeps its position, a new key is appended, matching JS object /
Map enumeration order), mutating methods become functions threading an
explicit state value, `Date.now()` becomes an explicit `now : Int` argument
(milliseconds), thrown errors become `Except`, and `undefined` results become
`Option` or the explicit `JSVal.vUndefined` value where the source can also
store `undefined`.  Cloning (`clone` / `structuredClone`) is the identity on
the immutable modelled values, so `useClones` is unobservable and dropped.
Timer scheduling (`setTimeout`) and event emission are outside the model.
-/

set_option autoImplicit false

namespace TsCache

/-- JavaScript values as storable in the cache.  Functions, Promises and
Buffers are outside the modelled value grammar (no claim mentions them);
arrays and objects carry their elements so the size estimator can branch on
shape exactly as the source does. -/
inductive JSVal where
  | vUndefined : JSVal
  | vNull : JSVal
  | vStr : String → JSVal
  | vNum : Int → JSVal
  | vBool : Bool → JSVal
  | vArr : List JSVal → JSVal
  | vObj : List (String × JSVal) → JSVal

/-- JS `value === undefined` test. -/
def JSVal.isUndef : JSVal → Bool
  | .vUndefined => true
  | _ => false

/-- A stored entry: `t` is the absolute expiry timestamp in ms (`0` = never
expires), `v` the stored value.  Mirrors `WrappedValue` in `src/types.ts`. -/
structure WrappedValue where
  t : Int
  v : JSVal

/-- The statistics record `{ hits, misses, keys, ksize, vsize }`.  The fields
are `Int` because the source uses plain JS numbers and nothing prevents them
from going negative. -/
structure Stats where
  hits : Int
  misses : Int
  keys : Int
  ksize : Int
  vsize : Int
deriving DecidableEq, Repr

/-- Lookup in an insertion-ordered association list (JS `obj[k]` / `Map.get`). -/
def alookup {α : Type} (k : String) : List (String × α) → Option α
  | [] => none
  | (k2, v2) :: rest => if k2 = k then some v2 else alookup k rest

/-- Assignment in an insertion-ordered association list: an existing key keeps
its position (JS object / Map update semantics), a new key is appended. -/
def aset {α : Type} (k : String) (v : α) : List (String × α) → List (String × α)
  | [] => [(k, v)]
  | (k2, v2) :: rest => if k2 = k then (k, v) :: rest else (k2, v2) :: aset k v rest

/-- Deletion from an association list (JS `delete obj[k]` / `Map.delete`). -/
def aerase {α : Type} (k : String) : List (String × α) → List (String × α)
  | [] => []
  | (k2, v2) :: rest => if k2 = k then rest else (k2, v2) :: aerase k rest

/-- JS `Set.add`: append the element if it is not already present. -/
def addToSet (k : String) (l : List String) : List String :=
  if k ∈ l then l else l ++ [k]

/-- The engine's error taxonomy: `ECACHEFULL` and `EKEYTYPE`. -/
inductive CacheErr where
  | cacheFull : CacheErr
  | keyType : CacheErr
deriving DecidableEq, Repr

namespace MemoryDriver

/-- Options of `MemoryDriver` (defaults: `stdTTL = 0`, `prefix = ''`,
`checkPeriod = 600`, `deleteOnExpire = true`, `maxKeys = -1`).  The source
field `prefix` is renamed `keyPrefix` here.  Serializer/compressor options are
identity transforms in the memory driver and are dropped. -/
structure MemOptions where
  stdTTL : Int
  keyPrefix : String
  checkPeriod : Int
  deleteOnExpire : Bool
  maxKeys : Int
deriving DecidableEq, Repr

/-- Mutable state of a `MemoryDriver` instance: `data`, `stats` and `tags`. -/
structure MemState where
  data : List (String × WrappedValue)
  stats : Stats
  tags : List (String × List String)
  opts : MemOptions

/-- `getFullKey`: prepend `prefix + ':'` when the prefix is non-empty
(JS truthiness of a string is non-emptiness). -/
def getFullKey (opts : MemOptions) (key : String) : String :=
  if opts.keyPrefix ≠ "" then opts.keyPrefix ++ ":" ++ key else key

/-- `stripPrefix`: remove `prefix + ':'` when present. -/
def stripPrefix (opts : MemOptions) (fullKey : String) : String :=
  if opts.keyPrefix ≠ "" ∧ (opts.keyPrefix ++ ":").isPrefixOf fullKey then
    fullKey.drop (opts.keyPrefix.length + 1)
  else fullKey

/-- `getKeySize`: the canonical string length of the key. -/
def getKeySize (key : String) : Int := key.length

/-- `getValueSize`: the approximate size estimator of the memory drivers.
Strings count their length, numbers and booleans 8, arrays 40 per element,
non-null objects 80 per field, everything else 0. -/
def getValueSize : JSVal → Int
  | .vStr s => s.length
  | .vNum _ => 8
  | .vBool _ => 8
  | .vArr a => 40 * a.length
  | .vObj o => 80 * o.length
  | .vNull => 0
  | .vUndefined => 0

/-- `wrap`: compute the absolute expiry.  An explicit ttl of `0` means never;
an explicit ttl otherwise (also negative) gives `now + ttl * 1000`; with no
explicit ttl the store's `stdTTL` applies the same way. -/
def wrap (opts : MemOptions) (now : Int) (value : JSVal) (ttl : Option Int) :
    WrappedValue :=
  let expiry : Int :=
    match ttl with
    | some t => if t = 0 then 0 else now + t * 1000
    | none => if opts.stdTTL = 0 then 0 else now + opts.stdTTL * 1000
  ⟨expiry, value⟩

/-- `unwrap`: a stored `undefined` comes back as `null`. -/
def unwrap (w : WrappedValue) : JSVal :=
  if w.v.isUndef then JSVal.vNull else w.v

/-- `checkExpiry`: an entry with non-zero `t` earlier than `now` is expired;
when `deleteOnExpire` is set the entry is removed and only the `keys` counter
is decremented, and the check reports `false` (absent).  When `deleteOnExpire`
is false the check falls through and reports `true` (present) even for an
expired entry. -/
def checkExpiry (now : Int) (key : String) (w : WrappedValue) (st : MemState) :
    Bool × MemState :=
  if w.t ≠ 0 ∧ w.t < now then
    if st.opts.deleteOnExpire then
      (false, { st with
        data := aerase key st.data
        stats := { st.stats with keys := st.stats.keys - 1 } })
    else (true, st)
  else (true, st)

/-- `MemoryDriver.get`. -/
def get (now : Int) (key : String) (st : MemState) : Option JSVal × MemState :=
  let fullKey := getFullKey st.opts key
  match alookup fullKey st.data with
  | some w =>
    let r := checkExpiry now fullKey w st
    if r.1 then
      (some (unwrap w),
        { r.2 with stats := { r.2.stats with hits := r.2.stats.hits + 1 } })
    else
      (none,
        { r.2 with stats := { r.2.stats with misses := r.2.stats.misses + 1 } })
  | none =>
    (none, { st with stats := { st.stats with misses := st.stats.misses + 1 } })

/-- `MemoryDriver.mget`: one pass over the requested keys, recording a hit and
collecting the value for keys that pass `checkExpiry`, a miss otherwise.  The
result object is keyed by the unprefixed key string. -/
def mget (now : Int) (ks : List String) (st : MemState) :
    List (String × JSVal) × MemState :=
  ks.foldl
    (fun acc key =>
      let fullKey := getFullKey acc.2.opts key
      match alookup fullKey acc.2.data with
      | some w =>
        let r := checkExpiry now fullKey w acc.2
        if r.1 then
          (aset key (unwrap w) acc.1,
            { r.2 with stats := { r.2.stats with hits := r.2.stats.hits + 1 } })
        else
          (acc.1,
            { r.2 with
              stats := { r.2.stats with misses := r.2.stats.misses + 1 } })
      | none =>
        (acc.1,
          { acc.2 with
            stats := { acc.2.stats with misses := acc.2.stats.misses + 1 } }))
    ([], st)

/-- `MemoryDriver.set`: throws `ECACHEFULL` whenever `maxKeys > -1` and the
stats key count already reached `maxKeys` — note the check precedes the
existence test, so it fires even when the key is already present.  Otherwise
replaces or appends the wrapped value and updates the stats. -/
def set (now : Int) (key : String) (value : JSVal) (ttl : Option Int)
    (st : MemState) : Except CacheErr MemState :=
  if st.opts.maxKeys > -1 ∧ st.stats.keys ≥ st.opts.maxKeys then
    .error .cacheFull
  else
    let fullKey := getFullKey st.opts key
    let old := alookup fullKey st.data
    let stats1 :=
      match old with
      | some w => { st.stats with vsize := st.stats.vsize - getValueSize (unwrap w) }
      | none => st.stats
    let stats2 := { stats1 with vsize := stats1.vsize + getValueSize value }
    let stats3 :=
      if old.isSome then stats2
      else { stats2 with
        ksize := stats2.ksize + getKeySize key
        keys := stats2.keys + 1 }
    .ok { st with data := aset fullKey (wrap st.opts now value ttl) st.data, stats := stats3 }

/-- `MemoryDriver.mset`: throws `ECACHEFULL` when `maxKeys > -1` and the stats
key count plus the total batch length (not the net-new count) reaches
`maxKeys`; otherwise applies `set` to each entry in order. -/
def mset (now : Int) (entries : List (String × JSVal × Option Int))
    (st : MemState) : Except CacheErr MemState :=
  if st.opts.maxKeys > -1 ∧ st.stats.keys + entries.length ≥ st.opts.maxKeys then
    .error .cacheFull
  else
    entries.foldlM (fun s e => set now e.1 e.2.1 e.2.2 s) st

/-- One iteration of the delete loop of `MemoryDriver.del`: an existing key
is removed, all stats decremented and the key erased from every tag set;
an absent key is skipped. -/
def delStep (acc : Int × MemState) (key : String) : Int × MemState :=
  let fullKey := getFullKey acc.2.opts key
  match alookup fullKey acc.2.data with
  | some w =>
    (acc.1 + 1,
      { acc.2 with
        data := aerase fullKey acc.2.data
        stats := { acc.2.stats with
          vsize := acc.2.stats.vsize - getValueSize (unwrap w)
          ksize := acc.2.stats.ksize - getKeySize key
          keys := acc.2.stats.keys - 1 }
        tags := acc.2.tags.map (fun p => (p.1, p.2.erase fullKey)) })
  | none => acc

/-- `MemoryDriver.del`: `delStep` over the requested keys. -/
def del (ks : List String) (st : MemState) : Int × MemState :=
  ks.foldl delStep (0, st)

/-- `MemoryDriver.has`: presence plus `checkExpiry` (which may mutate). -/
def has (now : Int) (key : String) (st : MemState) : Bool × MemState :=
  let fullKey := getFullKey st.opts key
  match alookup fullKey st.data with
  | some w => checkExpiry now fullKey w st
  | none => (false, st)

/-- The loop of `MemoryDriver.keys`: JS `Object.keys(this.data)` is a snapshot
of the key list, then `.filter(fullKey => this.checkExpiry(...))` runs the
mutating check left to right, keeping the keys it reports live. -/
def keysScan (now : Int) : List String → List String → MemState →
    List String × MemState
  | [], acc, st => (acc, st)
  | k :: rest, acc, st =>
    match alookup k st.data with
    | some w =>
      let r := checkExpiry now k w st
      keysScan now rest (if r.1 then acc ++ [k] else acc) r.2
    | none => keysScan now rest acc st

/-- Anchored glob matching, the semantics of the regex `patternToRegex`
builds: literal characters (regex metacharacters are escaped), `*` becomes
`.*` and `?` becomes `.`.  The regex `.` does not match line terminators,
which `dotChar` reflects. -/
def dotChar (c : Char) : Bool :=
  c ≠ Char.ofNat 10 && c ≠ Char.ofNat 13 && c ≠ Char.ofNat 8232 && c ≠ Char.ofNat 8233

/-- Matcher for the anchored regex of `patternToRegex`, on character lists. -/
def globMatch (p : List Char) (s : List Char) : Bool :=
  match p, s with
  | [], [] => true
  | [], _ :: _ => false
  | c :: ps, s =>
    if c = '*' then
      globMatch ps s ||
        (match s with
         | [] => false
         | d :: s2 => dotChar d && globMatch (c :: ps) s2)
    else
      match s with
      | [] => false
      | d :: s2 => (if c = '?' then dotChar d else c == d) && globMatch ps s2
termination_by (p.length, s.length)

/-- `MemoryDriver.keys`: enumerate the snapshot of stored keys through the
mutating expiry check, strip the prefix, and filter by the glob pattern when a
non-empty pattern was supplied (JS truthiness of the pattern string). -/
def keys (now : Int) (pat : Option String) (st : MemState) :
    List String × MemState :=
  let r := keysScan now (st.data.map Prod.fst) [] st
  let allKeys := r.1.map (stripPrefix st.opts)
  match pat with
  | some p =>
    if p ≠ "" then (allKeys.filter (fun k => globMatch p.data k.data), r.2)
    else (allKeys, r.2)
  | none => (allKeys, r.2)

/-- `MemoryDriver.getTtl`: the stored expiry timestamp when the entry passes
`checkExpiry`, `undefined` otherwise. -/
def getTtl (now : Int) (key : String) (st : MemState) :
    Option Int × MemState :=
  let fullKey := getFullKey st.opts key
  match alookup fullKey st.data with
  | some w =>
    let r := checkExpiry now fullKey w st
    if r.1 then (some w.t, r.2) else (none, r.2)
  | none => (none, st)

/-- `MemoryDriver.ttl`: when the entry passes `checkExpiry`, re-wrap the
stored value with the new ttl (an explicit ttl, so `0` = never and any other
value, negative included, gives `now + ttl * 1000`) and report success. -/
def ttl (now : Int) (key : String) (t : Int) (st : MemState) :
    Bool × MemState :=
  let fullKey := getFullKey st.opts key
  match alookup fullKey st.data with
  | some w =>
    let r := checkExpiry now fullKey w st
    if r.1 then
      (true, { r.2 with data := aset fullKey (wrap r.2.opts now w.v (some t)) r.2.data })
    else (false, r.2)
  | none => (false, st)

/-- `MemoryDriver.tag`: fails only when the key is not physically present in
`data` (no expiry check); otherwise adds the full key to each named tag set,
creating the set on first use. -/
def tag (key : String) (tagNames : List String) (st : MemState) :
    Bool × MemState :=
  let fullKey := getFullKey st.opts key
  if (alookup fullKey st.data).isSome then
    (true, { st with
      tags := tagNames.foldl
        (fun acc t =>
          match alookup t acc with
          | some ks => aset t (addToSet fullKey ks) acc
          | none => acc ++ [(t, [fullKey])])
        st.tags })
  else (false, st)

/-- A fresh driver state for the given options. -/
def initState (opts : MemOptions) : MemState :=
  ⟨[], ⟨0, 0, 0, 0, 0⟩, [], opts⟩

end MemoryDriver

namespace MemoryLRUDriver

/-- Mutable state of a `MemoryLRUDriver` instance.  The intrusive doubly
linked list of `LRUNode`s is modelled by `order`, the list of keys in recency
order with the head (most recently used) first and the tail (least recently
used) last; `addToHead` is consing, `removeNode` is erasing the key, and
`removeTail` drops the last element.  `data` keeps the `Map` insertion order
(`Map.set` on an existing key keeps its position). -/
structure LruState where
  data : List (String × WrappedValue)
  order : List String
  stats : Stats
  tags : List (String × List String)
  opts : MemoryDriver.MemOptions

/-- `MemoryLRUDriver.checkExpiry`: like the plain driver, the expired entry is
removed (node unlinked, map entry deleted, only the `keys` counter
decremented) when `deleteOnExpire` is set; with `deleteOnExpire` false the
check falls through and reports the entry live. -/
def checkExpiry (now : Int) (key : String) (w : WrappedValue)
    (st : LruState) : Bool × LruState :=
  if w.t ≠ 0 ∧ w.t < now then
    if st.opts.deleteOnExpire then
      match alookup key st.data with
      | some _ =>
        (false, { st with
          order := st.order.erase key
          data := aerase key st.data
          stats := { st.stats with keys := st.stats.keys - 1 } })
      | none => (false, st)
    else (true, st)
  else (true, st)

/-- `evictLRU`: unlink the tail node and, when one existed, delete its key
and decrement all stats using the node's full key. -/
def evictLRU (st : LruState) : LruState :=
  match st.order.getLast? with
  | none => st
  | some tailKey =>
    let st1 := { st with order := st.order.dropLast }
    match alookup tailKey st1.data with
    | some w =>
      { st1 with
        data := aerase tailKey st1.data
        stats := { st1.stats with
          vsize := st1.stats.vsize - MemoryDriver.getValueSize (MemoryDriver.unwrap w)
          ksize := st1.stats.ksize - MemoryDriver.getKeySize tailKey
          keys := st1.stats.keys - 1 } }
    | none => st1

/-- `MemoryLRUDriver.get`: a hit moves the node to the head of the recency
list. -/
def get (now : Int) (key : String) (st : LruState) : Option JSVal × LruState :=
  let fullKey := MemoryDriver.getFullKey st.opts key
  match alookup fullKey st.data with
  | some w =>
    let r := checkExpiry now fullKey w st
    if r.1 then
      (some (MemoryDriver.unwrap w),
        { r.2 with
          order := fullKey :: r.2.order.erase fullKey
          stats := { r.2.stats with hits := r.2.stats.hits + 1 } })
    else
      (none,
        { r.2 with stats := { r.2.stats with misses := r.2.stats.misses + 1 } })
  | none =>
    (none, { st with stats := { st.stats with misses := st.stats.misses + 1 } })

/-- `MemoryLRUDriver.mget`: per key, the same hit/miss and recency handling
as `get`, collecting hits keyed by the unprefixed key. -/
def mget (now : Int) (ks : List String) (st : LruState) :
    List (String × JSVal) × LruState :=
  ks.foldl
    (fun acc key =>
      let fullKey := MemoryDriver.getFullKey acc.2.opts key
      match alookup fullKey acc.2.data with
      | some w =>
        let r := checkExpiry now fullKey w acc.2
        if r.1 then
          (aset key (MemoryDriver.unwrap w) acc.1,
            { r.2 with
              order := fullKey :: r.2.order.erase fullKey
              stats := { r.2.stats with hits := r.2.stats.hits + 1 } })
        else
          (acc.1,
            { r.2 with
              stats := { r.2.stats with misses := r.2.stats.misses + 1 } })
      | none =>
        (acc.1,
          { acc.2 with
            stats := { acc.2.stats with misses := acc.2.stats.misses + 1 } }))
    ([], st)

/-- `MemoryLRUDriver.set`: replacing an existing key first subtracts its old
value size and unlinks its node; a new key at capacity (`maxKeys > 0` and the
stats key count at least `maxKeys`) silently evicts the least recently used
tail.  The new node is then linked at the head and the stats updated.  This
`set` never raises. -/
def set (now : Int) (key : String) (value : JSVal) (ttl : Option Int)
    (st : LruState) : LruState :=
  let fullKey := MemoryDriver.getFullKey st.opts key
  let old := alookup fullKey st.data
  let st1 :=
    match old with
    | some w =>
      { st with
        stats := { st.stats with
          vsize := st.stats.vsize - MemoryDriver.getValueSize (MemoryDriver.unwrap w) }
        order := st.order.erase fullKey }
    | none =>
      if st.opts.maxKeys > 0 ∧ st.stats.keys ≥ st.opts.maxKeys then evictLRU st
      else st
  let st2 := { st1 with
    order := fullKey :: st1.order
    data := aset fullKey (MemoryDriver.wrap st1.opts now value ttl) st1.data }
  let stats1 := { st2.stats with
    vsize := st2.stats.vsize + MemoryDriver.getValueSize value }
  let stats2 :=
    if old.isSome then stats1
    else { stats1 with
      ksize := stats1.ksize + MemoryDriver.getKeySize key
      keys := stats1.keys + 1 }
  { st2 with stats := stats2 }

/-- `MemoryLRUDriver.has`: presence plus `checkExpiry`, no recency change. -/
def has (now : Int) (key : String) (st : LruState) : Bool × LruState :=
  let fullKey := MemoryDriver.getFullKey st.opts key
  match alookup fullKey st.data with
  | some w => checkExpiry now fullKey w st
  | none => (false, st)

/-- The loop of `MemoryLRUDriver.keys`: `Array.from(this.data.values())` is a
snapshot in map insertion order, filtered through the mutating expiry check. -/
def keysScan (now : Int) : List String → List String → LruState →
    List String × LruState
  | [], acc, st => (acc, st)
  | k :: rest, acc, st =>
    match alookup k st.data with
    | some w =>
      let r := checkExpiry now k w st
      keysScan now rest (if r.1 then acc ++ [k] else acc) r.2
    | none => keysScan now rest acc st

/-- `MemoryLRUDriver.keys`: live keys in map insertion order, prefix
stripped, glob-filtered when a non-empty pattern is supplied. -/
def keys (now : Int) (pat : Option String) (st : LruState) :
    List String × LruState :=
  let r := keysScan now (st.data.map Prod.fst) [] st
  let allKeys := r.1.map (MemoryDriver.stripPrefix st.opts)
  match pat with
  | some p =>
    if p ≠ "" then
      (allKeys.filter (fun k => MemoryDriver.globMatch p.data k.data), r.2)
    else (allKeys, r.2)
  | none => (allKeys, r.2)

/-- `MemoryLRUDriver.ttl`: on a live entry, re-wrap with the explicit ttl and
move the node to the head. -/
def ttl (now : Int) (key : String) (t : Int) (st : LruState) :
    Bool × LruState :=
  let fullKey := MemoryDriver.getFullKey st.opts key
  match alookup fullKey st.data with
  | some w =>
    let r := checkExpiry now fullKey w st
    if r.1 then
      (true, { r.2 with
        data := aset fullKey (MemoryDriver.wrap r.2.opts now w.v (some t)) r.2.data
        order := fullKey :: r.2.order.erase fullKey })
    else (false, r.2)
  | none => (false, st)

/-- `MemoryLRUDriver.tag`: identical to the plain driver, keyed on physical
presence in `data` with no expiry check. -/
def tag (key : String) (tagNames : List String) (st : LruState) :
    Bool × LruState :=
  let fullKey := MemoryDriver.getFullKey st.opts key
  if (alookup fullKey st.data).isSome then
    (true, { st with
      tags := tagNames.foldl
        (fun acc t =>
          match alookup t acc with
          | some ks => aset t (addToSet fullKey ks) acc
          | none => acc ++ [(t, [fullKey])])
        st.tags })
  else (false, st)

/-- A fresh LRU driver state. -/
def initState (opts : MemoryDriver.MemOptions) : LruState :=
  ⟨[], [], ⟨0, 0, 0, 0, 0⟩, [], opts⟩

end MemoryLRUDriver

namespace Cache

/-- Options of the legacy synchronous `Cache` (defaults: `stdTTL = 0`,
`checkPeriod = 600`, `deleteOnExpire = true`, `maxKeys = -1`,
`arrayValueSize = 40`, `objectValueSize = 80`, stats and events enabled).
`forceString` is fixed to its default `false` (its branches are then dead for
stored values), `useClones` is unobservable, `maxPerformance` is fixed to
`false` (the `dataMap` fast path has the same semantics over `data`), and
`promiseValueSize` is unreachable because Promises are outside the value
grammar. -/
structure CacheOptions where
  stdTTL : Int
  checkPeriod : Int
  deleteOnExpire : Bool
  enableStats : Bool
  maxKeys : Int
  arrayValueSize : Int
  objectValueSize : Int
deriving DecidableEq, Repr

/-- `_checkTTL`, cached at construction: TTL handling is active iff
`stdTTL !== 0 || checkPeriod !== 0`. -/
def checkTTL (opts : CacheOptions) : Bool :=
  !(opts.stdTTL == 0) || !(opts.checkPeriod == 0)

/-- Mutable state of a legacy `Cache` instance (it has no tag index). -/
structure CacheState where
  data : List (String × WrappedValue)
  stats : Stats
  opts : CacheOptions

/-- `_getValLength` with `forceString = false`: strings count their length,
arrays `arrayValueSize` per element, numbers and booleans 8, non-null objects
`objectValueSize` per key, everything else 0. -/
def getValLength (opts : CacheOptions) : JSVal → Int
  | .vStr s => s.length
  | .vArr a => opts.arrayValueSize * a.length
  | .vNum _ => 8
  | .vObj o => opts.objectValueSize * o.length
  | .vBool _ => 8
  | .vNull => 0
  | .vUndefined => 0

/-- `_wrap` (legacy): ttl `0` means never; any other explicit ttl (negative
included, JS truthiness) gives `now + ttl * 1000`; otherwise `stdTTL`
applies the same way. -/
def wrapL (opts : CacheOptions) (now : Int) (value : JSVal) (ttl : Option Int) :
    WrappedValue :=
  let livetime : Int :=
    match ttl with
    | some t => if t = 0 then 0 else now + t * 1000
    | none => if opts.stdTTL = 0 then 0 else now + opts.stdTTL * 1000
  ⟨livetime, value⟩

/-- `Cache.get`: a miss bumps `misses`; an entry expired under active TTL
handling decrements `misses`/sizes/keys when stats are enabled, is deleted
only when `deleteOnExpire` is set, and returns `undefined`; otherwise the
stored value is returned after bumping `hits`. -/
def get (now : Int) (key : String) (st : CacheState) : JSVal × CacheState :=
  match alookup key st.data with
  | none =>
    (JSVal.vUndefined,
      if st.opts.enableStats then
        { st with stats := { st.stats with misses := st.stats.misses + 1 } }
      else st)
  | some d =>
    if checkTTL st.opts ∧ d.t ≠ 0 ∧ d.t < now then
      let stats1 :=
        if st.opts.enableStats then
          { st.stats with
            misses := st.stats.misses + 1
            vsize := st.stats.vsize - getValLength st.opts d.v
            ksize := st.stats.ksize - (key.length : Int)
            keys := st.stats.keys - 1 }
        else st.stats
      let data1 := if st.opts.deleteOnExpire then aerase key st.data else st.data
      (JSVal.vUndefined, { st with data := data1, stats := stats1 })
    else
      (d.v,
        if st.opts.enableStats then
          { st with stats := { st.stats with hits := st.stats.hits + 1 } }
        else st)

/-- One iteration of the delete loop of `Cache.del`: an existing key is
removed and all stats decremented (unconditionally — `del` has no
`enableStats` guard); an absent key is skipped.  Key-type validation is
outside the model (keys are canonical strings). -/
def delStep (acc : Int × CacheState) (key : String) : Int × CacheState :=
  match alookup key acc.2.data with
  | some d =>
    (acc.1 + 1,
      { acc.2 with
        data := aerase key acc.2.data
        stats := { acc.2.stats with
          vsize := acc.2.stats.vsize - getValLength acc.2.opts d.v
          ksize := acc.2.stats.ksize - (key.length : Int)
          keys := acc.2.stats.keys - 1 } })
  | none => acc

/-- `Cache.del`: `delStep` over the requested keys. -/
def del (ks : List String) (st : CacheState) : Int × CacheState :=
  ks.foldl delStep (0, st)

/-- `Cache.mget`: per key, a live entry (`t === 0 || t >= now`, against the
`now` captured at entry) bumps `hits` and is collected; otherwise `misses` is
bumped and an expired entry is deleted through `del` when `deleteOnExpire` is
set.  These stats updates are unconditional (no `enableStats` guard). -/
def mget (now : Int) (ks : List String) (st : CacheState) :
    List (String × JSVal) × CacheState :=
  ks.foldl
    (fun acc key =>
      match alookup key acc.2.data with
      | some d =>
        if d.t = 0 ∨ d.t ≥ now then
          (aset key d.v acc.1,
            { acc.2 with
              stats := { acc.2.stats with hits := acc.2.stats.hits + 1 } })
        else
          let s1 := { acc.2 with
            stats := { acc.2.stats with misses := acc.2.stats.misses + 1 } }
          (acc.1, if s1.opts.deleteOnExpire then (del [key] s1).2 else s1)
      | none =>
        (acc.1,
          { acc.2 with
            stats := { acc.2.stats with misses := acc.2.stats.misses + 1 } }))
    ([], st)

/-- `Cache.set`: the `ECACHEFULL` check runs only for keys not already
present (`maxKeys` must be truthy, `> -1`, and the stats key count at least
`maxKeys`).  The expiry is computed only when TTL handling is active,
otherwise `0`.  Replacement subtracts the old value size (when stats are
enabled); insertion adds key size and key count. -/
def set (now : Int) (key : String) (value : JSVal) (ttl : Option Int)
    (st : CacheState) : Except CacheErr CacheState :=
  let existent := (alookup key st.data).isSome
  if ¬ existent ∧ st.opts.maxKeys ≠ 0 ∧ st.opts.maxKeys > -1 ∧
      st.stats.keys ≥ st.opts.maxKeys then
    .error .cacheFull
  else
    let livetime : Int :=
      if checkTTL st.opts then
        match ttl with
        | some t => if t = 0 then 0 else now + t * 1000
        | none => if st.opts.stdTTL = 0 then 0 else now + st.opts.stdTTL * 1000
      else 0
    let stats1 :=
      if st.opts.enableStats ∧ existent then
        match alookup key st.data with
        | some old => { st.stats with vsize := st.stats.vsize - getValLength st.opts old.v }
        | none => st.stats
      else st.stats
    let stats2 :=
      if st.opts.enableStats then
        let s := { stats1 with vsize := stats1.vsize + getValLength st.opts value }
        if ¬ existent then
          { s with ksize := s.ksize + (key.length : Int), keys := s.keys + 1 }
        else s
      else stats1
    .ok { st with data := aset key ⟨livetime, value⟩ st.data, stats := stats2 }

/-- The per-occurrence count of batch entries whose key is not present, as
computed by the first loop of `Cache.mset`. -/
def newKeysCount (entries : List (String × JSVal × Option Int))
    (data : List (String × WrappedValue)) : Int :=
  (entries.countP (fun e => (alookup e.1 data).isNone) : Nat)

/-- One iteration of the write loop of `Cache.mset` (stats updates are
unconditional there, and the expiry is computed without the `_checkTTL`
shortcut, against the `now` captured before the loop). -/
def msetStep (now : Int) (st : CacheState) (e : String × JSVal × Option Int) :
    CacheState :=
  let existent := (alookup e.1 st.data).isSome
  let livetime : Int :=
    match e.2.2 with
    | some t => if t = 0 then 0 else now + t * 1000
    | none => if st.opts.stdTTL = 0 then 0 else now + st.opts.stdTTL * 1000
  let stats1 :=
    if existent then
      match alookup e.1 st.data with
      | some old => { st.stats with vsize := st.stats.vsize - getValLength st.opts old.v }
      | none => st.stats
    else st.stats
  let stats2 :=
    let s := { stats1 with vsize := stats1.vsize + getValLength st.opts e.2.1 }
    if ¬ existent then
      { s with ksize := s.ksize + (e.1.length : Int), keys := s.keys + 1 }
    else s
  { st with data := aset e.1 ⟨livetime, e.2.1⟩ st.data, stats := stats2 }

/-- `Cache.mset`: counts the not-yet-present entries per occurrence, rejects
with `ECACHEFULL` — before writing anything — when `maxKeys` is truthy,
`> -1` and the stats key count plus that number exceeds `maxKeys`; otherwise
writes every entry. -/
def mset (now : Int) (entries : List (String × JSVal × Option Int))
    (st : CacheState) : Except CacheErr CacheState :=
  if st.opts.maxKeys ≠ 0 ∧ st.opts.maxKeys > -1 ∧
      st.stats.keys + newKeysCount entries st.data > st.opts.maxKeys then
    .error .cacheFull
  else
    .ok (entries.foldl (msetStep now) st)

/-- `Cache.take`: `get`, then `del` only when the returned value was not
`undefined`. -/
def take (now : Int) (key : String) (st : CacheState) : JSVal × CacheState :=
  let r := get now key st
  if r.1.isUndef then r else (r.1, (del [key] r.2).2)

/-- `_check`: an entry with non-zero `t` earlier than `now` is invalid; when
`deleteOnExpire` is set it is removed through the full `del` path and the
check reports `false`, otherwise the check still reports `true`. -/
def check (now : Int) (key : String) (d : WrappedValue) (st : CacheState) :
    Bool × CacheState :=
  if d.t ≠ 0 ∧ d.t < now then
    if st.opts.deleteOnExpire then (false, (del [key] st).2)
    else (true, st)
  else (true, st)

/-- `Cache.ttl`: a falsy key returns false.  On an entry passing `_check`,
a truthy non-negative effective ttl (explicit or `stdTTL`) re-wraps the value
and a zero or negative one deletes the key, both returning `true`. -/
def ttl (now : Int) (key : String) (t : Option Int) (st : CacheState) :
    Bool × CacheState :=
  let ttlValue := t.getD st.opts.stdTTL
  if key = "" then (false, st)
  else
    match alookup key st.data with
    | some d =>
      let r := check now key d st
      if r.1 then
        if ttlValue ≠ 0 ∧ ttlValue ≥ 0 then
          (true, { r.2 with data := aset key (wrapL r.2.opts now d.v (some ttlValue)) r.2.data })
        else (true, (del [key] r.2).2)
      else (false, r.2)
    | none => (false, st)

/-- `Cache.getTtl`: a falsy key returns `undefined`; an entry passing
`_check` returns its expiry timestamp. -/
def getTtl (now : Int) (key : String) (st : CacheState) :
    Option Int × CacheState :=
  if key = "" then (none, st)
  else
    match alookup key st.data with
    | some d =>
      let r := check now key d st
      if r.1 then (some d.t, r.2) else (none, r.2)
    | none => (none, st)

/-- `Cache.keys`: `Object.keys(this.data)` — every stored key, with no
expiry filtering and no pattern parameter. -/
def keys (st : CacheState) : List String :=
  st.data.map Prod.fst

/-- `Cache.has`: pure read; under active TTL handling a key is reported
present iff its entry has `t === 0 || t >= Date.now()`; with TTL handling
inactive mere presence suffices.  No stats update, no deletion. -/
def has (now : Int) (key : String) (st : CacheState) : Bool :=
  match alookup key st.data with
  | some d => if checkTTL st.opts then (d.t == 0 || decide (d.t ≥ now)) else true
  | none => false

/-- A fresh legacy cache state. -/
def initState (opts : CacheOptions) : CacheState :=
  ⟨[], ⟨0, 0, 0, 0, 0⟩, opts⟩

end Cache

/-! ## Scaffolding for the claims -/

/-- The memory driver's default options: `stdTTL = 0`, no prefix,
`checkPeriod = 600`, `deleteOnExpire = true`, `maxKeys = -1`. -/
def memDefOpts : MemoryDriver.MemOptions := ⟨0, "", 600, true, -1⟩

/-- A single driver mutation, for stating the stats invariant over operation
sequences: a `set` (the state is kept when it throws — the capacity check
precedes every mutation in the source) or a `del`. -/
inductive MemOp where
  | opSet : Int → String → JSVal → Option Int → MemOp
  | opDel : List String → MemOp

/-- Apply one `MemOp` to a driver state. -/
def runOp (st : MemoryDriver.MemState) : MemOp → MemoryDriver.MemState
  | .opSet now k v ttl =>
    match MemoryDriver.set now k v ttl st with
    | .ok st2 => st2
    | .error _ => st
  | .opDel ks => (MemoryDriver.del ks st).2

/-- Apply a sequence of `MemOp`s from left to right. -/
def runOps (ops : List MemOp) (st : MemoryDriver.MemState) :
    MemoryDriver.MemState :=
  ops.foldl runOp st

/-! ## C5: the LRU recency scenario -/

/-- Capacity-3 LRU options: `stdTTL = 0` so every entry never expires. -/
def lruOpts3 : MemoryDriver.MemOptions := ⟨0, "", 600, true, 3⟩

/-- The C5 scenario: insert `a`, `b`, `c`, read `a`, insert `d`. -/
def c5run : MemoryLRUDriver.LruState :=
  let s1 := MemoryLRUDriver.set 0 "a" (JSVal.vNum 1) none
    (MemoryLRUDriver.initState lruOpts3)
  let s2 := MemoryLRUDriver.set 0 "b" (JSVal.vNum 2) none s1
  let s3 := MemoryLRUDriver.set 0 "c" (JSVal.vNum 3) none s2
  let s4 := (MemoryLRUDriver.get 0 "a" s3).2
  MemoryLRUDriver.set 0 "d" (JSVal.vNum 4) none s4

/-- C5: in the LRU store with capacity 3, after `set a`, `set b`, `set c`,
`get a`, `set d` (all with infinite TTL), `keys()` returns the set
`{a, c, d}` and `has(b)` is false: inserting at capacity silently evicts the
least-recently-used tail `b`, because the `get` hit refreshed the recency of
`a`. -/
theorem claim_C5 :
    ((MemoryLRUDriver.keys 0 none c5run).1.toFinset
      = ({"a", "c", "d"} : Finset String)) ∧
    (MemoryLRUDriver.has 0 "b" c5run).1 = false := by
  constructor
  · decide
  · rfl

/-! ## Concrete counterexample states -/

/-- A driver state with `deleteOnExpire = false` holding one entry that
expired at time 2000. -/
def c1cexSt : MemoryDriver.MemState :=
  ⟨[("k", ⟨2000, JSVal.vStr "x"⟩)], ⟨0, 0, 1, 1, 1⟩, [], ⟨0, "", 600, false, -1⟩⟩

/-- C1 counterexample: with `deleteOnExpire = false` and an entry whose
`expiresAt` (2000) is earlier than the current time (3000), `has` returns
`true` — the claim requires every read path to report the entry absent
(`has` false) in this mode, but `MemoryDriver.checkExpiry` falls through and
reports expired entries live when it does not delete them. -/
theorem claim_C1_cex : (MemoryDriver.has 3000 "k" c1cexSt).1 = true := rfl

/-- A bounded (`maxKeys = 1`), non-LRU driver state at capacity, holding the
key `a`. -/
def c2cexSt : MemoryDriver.MemState :=
  ⟨[("a", ⟨0, JSVal.vNum 1⟩)], ⟨0, 0, 1, 1, 8⟩, [], ⟨0, "", 600, true, 1⟩⟩

/-- C2 counterexample: on a bounded non-LRU store at its maximum key count, a
`set` on the already-present key `a` throws `ECACHEFULL` instead of
replacing in place — `MemoryDriver.set` runs its capacity check before the
existence test. -/
theorem claim_C2_cex :
    MemoryDriver.set 0 "a" (JSVal.vNum 2) none c2cexSt
      = Except.error CacheErr.cacheFull := rfl

/-- A bounded (`maxKeys = 2`) driver state holding one live key `a`. -/
def c3cexSt : MemoryDriver.MemState :=
  ⟨[("a", ⟨0, JSVal.vNum 1⟩)], ⟨0, 0, 1, 1, 8⟩, [], ⟨0, "", 600, true, 2⟩⟩

/-- C3 counterexample: the batch `[(a, 9)]` has zero net-new keys, so the
projected total (1) does not exceed `maxKeys = 2` and the claim requires the
batch to be accepted; `MemoryDriver.mset` instead compares
`keys + batch length ≥ maxKeys` (1 + 1 ≥ 2) and rejects it. -/
theorem claim_C3_cex :
    MemoryDriver.mset 0 [("a", JSVal.vNum 9, none)] c3cexSt
      = Except.error CacheErr.cacheFull := rfl

/-- The state after `set("k", "hello", ttl 1s)` at time 0 and a `get("k")` at
time 2000 on a default-options driver: the lazy expiry path removed the
entry. -/
def c4cexSt : MemoryDriver.MemState :=
  (MemoryDriver.get 2000 "k"
    (runOps [.opSet 0 "k" (JSVal.vStr "hello") (some 1)]
      (MemoryDriver.initState memDefOpts))).2

/-- C4 counterexample: after the lazy expiry removal the store is empty, yet
`vsize` still holds the 5 bytes of the removed `"hello"` (and `ksize` its 1
key byte) — the claim requires `ksize`/`vsize` to equal the sums of per-entry
estimates (here 0) after every operation sequence, but
`MemoryDriver.checkExpiry` decrements only the `keys` counter. -/
theorem claim_C4_cex :
    c4cexSt.data = [] ∧ c4cexSt.stats.vsize = 5 ∧ c4cexSt.stats.ksize = 1 := by
  refine ⟨rfl, rfl, rfl⟩

/-- A legacy cache state with `deleteOnExpire = false`, stats enabled and one
entry expired at time 2000. -/
def c6cexSt : Cache.CacheState :=
  ⟨[("k", ⟨1000, JSVal.vStr "x"⟩)], ⟨0, 0, 1, 1, 1⟩, ⟨0, 600, false, true, -1, 40, 80⟩⟩

/-- C6 counterexample: at time 2000 the entry `k` is expired but (with
`deleteOnExpire = false`) not removed by `get`; `take` skips its delete
because `get` returned `undefined`, leaving one entry, while the sequence
`get` then `del` removes it — so `take` is not equivalent to `get` followed
by `del` for this stored state. -/
theorem claim_C6_cex :
    ((Cache.take 2000 "k" c6cexSt).2).data.length = 1 ∧
    ((Cache.del ["k"] (Cache.get 2000 "k" c6cexSt).2).2).data.length = 0 := by
  refine ⟨rfl, rfl⟩

/-- A legacy cache state holding one entry that expired at time 1000. -/
def c7cexSt : Cache.CacheState :=
  ⟨[("k", ⟨1000, JSVal.vStr "x"⟩)], ⟨0, 0, 1, 1, 1⟩, ⟨0, 600, true, true, -1, 40, 80⟩⟩

/-- C7 counterexample: the legacy `Cache.keys` returns every stored key — it
consults neither the clock nor a pattern — so at any call time after 1000
(e.g. 2000) it still enumerates the expired key `k`, which the claim requires
to be omitted. -/
theorem claim_C7_cex : Cache.keys c7cexSt = ["k"] := rfl

/-- A legacy cache state holding one live, never-expiring entry. -/
def c8cexSt : Cache.CacheState :=
  ⟨[("k", ⟨0, JSVal.vStr "x"⟩)], ⟨0, 0, 1, 1, 1⟩, ⟨0, 600, true, true, -1, 40, 80⟩⟩

/-- C8 counterexample: `ttl(k, 0)` on a live key must make it never-expiring
per the claim, but the legacy `Cache.ttl` treats the effective ttl `0` as
falsy and deletes the key (returning `true`). -/
theorem claim_C8_cex :
    (Cache.ttl 2000 "k" (some 0) c8cexSt).1 = true ∧
    ((Cache.ttl 2000 "k" (some 0) c8cexSt).2).data = [] := by
  refine ⟨rfl, rfl⟩

/-- A driver state (default options) holding one entry expired at 1000. -/
def c9cexSt : MemoryDriver.MemState :=
  ⟨[("k", ⟨1000, JSVal.vStr "x"⟩)], ⟨0, 0, 1, 1, 1⟩, [], memDefOpts⟩

/-- C9 counterexample: at any current time after 1000 (e.g. 2000) the entry
`k` has passed its non-zero `expiresAt`, so per the claim `tag` must return
`false`; `MemoryDriver.tag` checks only physical presence (it takes no clock
at all) and returns `true`. -/
theorem claim_C9_cex : (MemoryDriver.tag "k" ["t1"] c9cexSt).1 = true := rfl

/-- A driver state with `deleteOnExpire = false` holding one entry expired at
1000. -/
def c10cexSt : MemoryDriver.MemState :=
  ⟨[("k", ⟨1000, JSVal.vStr "x"⟩)], ⟨0, 0, 1, 1, 1⟩, [], ⟨0, "", 600, false, -1⟩⟩

/-- C10 counterexample: at time 2000 the key `k` is expired, so the claim
requires `mget(["k"])` to record a miss and omit it; with
`deleteOnExpire = false` the driver's expiry check reports it live, so `mget`
records a hit and returns it. -/
theorem claim_C10_cex :
    ((MemoryDriver.mget 2000 ["k"] c10cexSt).2).stats.hits = 1 ∧
    ((MemoryDriver.mget 2000 ["k"] c10cexSt).2).stats.misses = 0 ∧
    (MemoryDriver.mget 2000 ["k"] c10cexSt).1 = [("k", JSVal.vStr "x")] := by
  refine ⟨rfl, rfl, rfl⟩

/-! ## Association-list lemmas -/

theorem alookup_aset_self {α : Type} (k : String) (v : α) (l : List (String × α)) :
    alookup k (aset k v l) = some v := by
  induction l with
  | nil => simp [aset, alookup]
  | cons e rest ih =>
    by_cases h : e.1 = k
    · simp [aset, alookup, h]
    · simp [aset, alookup, h, ih]

theorem aset_of_lookup_none {α : Type} (k : String) (v : α)
    (l : List (String × α)) (h : alookup k l = none) :
    aset k v l = l ++ [(k, v)] := by
  induction l with
  | nil => simp [aset]
  | cons e rest ih =>
    by_cases he : e.1 = k
    · simp [alookup, he] at h
    · simp [alookup, he] at h
      simp [aset, he, ih h]

theorem length_aset_some {α : Type} (k : String) (v : α)
    (l : List (String × α)) (w : α) (h : alookup k l = some w) :
    (aset k v l).length = l.length := by
  induction l with
  | nil => simp [alookup] at h
  | cons e rest ih =>
    by_cases he : e.1 = k
    · simp [aset, he]
    · simp [alookup, he] at h
      simp [aset, he, ih h]

theorem length_aerase_some {α : Type} (k : String)
    (l : List (String × α)) (w : α) (h : alookup k l = some w) :
    (aerase k l).length + 1 = l.length := by
  induction l with
  | nil => simp [alookup] at h
  | cons e rest ih =>
    by_cases he : e.1 = k
    · simp [aerase, he]
    · simp [alookup, he] at h
      simp [aerase, he, ih h]

theorem alookup_mem_keys {α : Type} (k : String) (l : List (String × α))
    (w : α) (h : alookup k l = some w) : k ∈ l.map Prod.fst := by
  induction l with
  | nil => simp [alookup] at h
  | cons e rest ih =>
    by_cases he : e.1 = k
    · simp [he]
    · simp [alookup, he] at h
      simp [ih h]

theorem alookup_isSome_of_mem_keys {α : Type} (k : String)
    (l : List (String × α)) (h : k ∈ l.map Prod.fst) :
    (alookup k l).isSome = true := by
  induction l with
  | nil => simp at h
  | cons e rest ih =>
    obtain ⟨k1, v1⟩ := e
    rw [List.map_cons, List.mem_cons] at h
    by_cases he : k1 = k
    · simp [alookup, he]
    · rcases h with h | h
      · exact absurd h.symm he
      · simpa [alookup, he] using ih h

theorem alookup_append_left {α : Type} (k : String) (l1 l2 : List (String × α))
    (w : α) (h : alookup k l1 = some w) : alookup k (l1 ++ l2) = some w := by
  induction l1 with
  | nil => simp [alookup] at h
  | cons e rest ih =>
    by_cases he : e.1 = k
    · simp [alookup, he] at h ⊢
      exact h
    · simp [alookup, he] at h ⊢
      exact ih h

theorem alookup_append_right {α : Type} (k : String) (l1 l2 : List (String × α))
    (h : k ∉ l1.map Prod.fst) : alookup k (l1 ++ l2) = alookup k l2 := by
  induction l1 with
  | nil => simp
  | cons e rest ih =>
    obtain ⟨k1, v1⟩ := e
    rw [List.map_cons, List.mem_cons] at h
    push_neg at h
    have he : k1 ≠ k := fun hc => h.1 hc.symm
    simp [alookup, he, ih h.2]

theorem aerase_append_right {α : Type} (k : String) (l1 l2 : List (String × α))
    (h : k ∉ l1.map Prod.fst) : aerase k (l1 ++ l2) = l1 ++ aerase k l2 := by
  induction l1 with
  | nil => simp
  | cons e rest ih =>
    obtain ⟨k1, v1⟩ := e
    rw [List.map_cons, List.mem_cons] at h
    push_neg at h
    have he : k1 ≠ k := fun hc => h.1 hc.symm
    simp [aerase, he, ih h.2]

/-! ## Size sums for the stats invariant -/

/-- Sum of the per-entry key-size estimates of a data list. -/
def keySizeSum (l : List (String × WrappedValue)) : Int :=
  (l.map (fun e => (e.1.length : Int))).sum

/-- Sum of the per-entry value-size estimates of a data list. -/
def valSizeSum (l : List (String × WrappedValue)) : Int :=
  (l.map (fun e => MemoryDriver.getValueSize e.2.v)).sum

theorem getValueSize_unwrap (w : WrappedValue) :
    MemoryDriver.getValueSize (MemoryDriver.unwrap w)
      = MemoryDriver.getValueSize w.v := by
  rcases w with ⟨t, v⟩
  cases v <;> rfl

theorem keySizeSum_aset_some (k : String) (v : WrappedValue)
    (l : List (String × WrappedValue)) (w : WrappedValue)
    (h : alookup k l = some w) : keySizeSum (aset k v l) = keySizeSum l := by
  induction l with
  | nil => simp [alookup] at h
  | cons e rest ih =>
    obtain ⟨k1, v1⟩ := e
    by_cases he : k1 = k
    · subst he
      simp [aset, keySizeSum]
    · simp [alookup, he] at h
      simp [aset, he, keySizeSum] at ih ⊢
      simp [ih h]

theorem valSizeSum_aset_some (k : String) (v : WrappedValue)
    (l : List (String × WrappedValue)) (w : WrappedValue)
    (h : alookup k l = some w) :
    valSizeSum (aset k v l)
      = valSizeSum l - MemoryDriver.getValueSize w.v
        + MemoryDriver.getValueSize v.v := by
  induction l with
  | nil => simp [alookup] at h
  | cons e rest ih =>
    obtain ⟨k1, v1⟩ := e
    by_cases he : k1 = k
    · subst he
      simp [alookup] at h
      subst h
      simp [aset, valSizeSum]
      ring
    · simp [alookup, he] at h
      simp [aset, he, valSizeSum] at ih ⊢
      simp [ih h]
      ring

theorem keySizeSum_aerase_some (k : String)
    (l : List (String × WrappedValue)) (w : WrappedValue)
    (h : alookup k l = some w) :
    keySizeSum (aerase k l) = keySizeSum l - (k.length : Int) := by
  induction l with
  | nil => simp [alookup] at h
  | cons e rest ih =>
    obtain ⟨k1, v1⟩ := e
    by_cases he : k1 = k
    · subst he
      simp [aerase, keySizeSum]
    · simp [alookup, he] at h
      simp [aerase, he, keySizeSum] at ih ⊢
      simp [ih h]
      ring

theorem valSizeSum_aerase_some (k : String)
    (l : List (String × WrappedValue)) (w : WrappedValue)
    (h : alookup k l = some w) :
    valSizeSum (aerase k l) = valSizeSum l - MemoryDriver.getValueSize w.v := by
  induction l with
  | nil => simp [alookup] at h
  | cons e rest ih =>
    obtain ⟨k1, v1⟩ := e
    by_cases he : k1 = k
    · subst he
      simp [alookup] at h
      subst h
      simp [aerase, valSizeSum]
    · simp [alookup, he] at h
      simp [aerase, he, valSizeSum] at ih ⊢
      simp [ih h]
      ring

/-! ## C2: replacing at capacity -/

/-- C2 (amended): for the legacy `Cache`, a `set` on an already-present key
always succeeds — also on a bounded, full store — replacing the value and
expiry in place without changing the key count or the number of stored
entries; the full-cache error is checked only for keys not currently present.
`MemoryDriver.set`, by contrast, raises the full-cache error whenever the
bounded store is full, even when the key already exists (its capacity check
precedes the existence test). -/
theorem claim_C2 :
    (∀ (now : Int) (key : String) (value : JSVal) (ttl : Option Int)
       (st : Cache.CacheState) (w : WrappedValue),
       alookup key st.data = some w →
       ∃ st2, Cache.set now key value ttl st = Except.ok st2 ∧
         st2.stats.keys = st.stats.keys ∧
         st2.data.length = st.data.length ∧
         ∃ t2, alookup key st2.data = some ⟨t2, value⟩) ∧
    (∀ (now : Int) (key : String) (value : JSVal) (ttl : Option Int)
       (st : MemoryDriver.MemState),
       st.opts.maxKeys > -1 → st.stats.keys ≥ st.opts.maxKeys →
       MemoryDriver.set now key value ttl st = Except.error CacheErr.cacheFull) := by
  constructor
  · intro now key value ttl st w h
    simp only [Cache.set, h, Option.isSome_some, not_true, false_and, if_false]
    refine ⟨_, rfl, ?_, length_aset_some key _ st.data w h,
      ⟨_, alookup_aset_self key _ st.data⟩⟩
    by_cases hs : st.opts.enableStats = true <;> simp [hs]
  · intro now key value ttl st hmk hge
    simp [MemoryDriver.set, hmk, hge]

/-- A legacy cache state at capacity (`maxKeys = 1`) holding the key `a`. -/
def c2wSt : Cache.CacheState :=
  ⟨[("a", ⟨0, JSVal.vNum 1⟩)], ⟨0, 0, 1, 1, 8⟩, ⟨0, 600, true, true, 1, 40, 80⟩⟩

/-- Witness for C2: on the concrete full legacy store, overwriting `a`
succeeds in place, and on the concrete full driver store the same `set`
throws. -/
theorem claim_C2_witness :
    (∃ st2, Cache.set 0 "a" (JSVal.vNum 2) none c2wSt = Except.ok st2 ∧
       st2.stats.keys = c2wSt.stats.keys ∧
       st2.data.length = c2wSt.data.length ∧
       ∃ t2, alookup "a" st2.data = some ⟨t2, JSVal.vNum 2⟩) ∧
    MemoryDriver.set 0 "a" (JSVal.vNum 2) none c2cexSt
      = Except.error CacheErr.cacheFull :=
  ⟨claim_C2.1 0 "a" (JSVal.vNum 2) none c2wSt ⟨0, JSVal.vNum 1⟩ rfl,
   claim_C2.2 0 "a" (JSVal.vNum 2) none c2cexSt (by decide) (by decide)⟩

/-! ## Live-entry reductions of the expiry checks -/

theorem checkExpiry_live (now : Int) (k : String) (w : WrappedValue)
    (st : MemoryDriver.MemState) (hl : w.t = 0 ∨ ¬ w.t < now) :
    MemoryDriver.checkExpiry now k w st = (true, st) := by
  unfold MemoryDriver.checkExpiry
  rw [if_neg]
  rintro ⟨h1, h2⟩
  rcases hl with hl | hl
  · exact h1 hl
  · exact hl h2

theorem checkExpiry_noDelete (now : Int) (k : String) (w : WrappedValue)
    (st : MemoryDriver.MemState) (hd : st.opts.deleteOnExpire = false) :
    MemoryDriver.checkExpiry now k w st = (true, st) := by
  unfold MemoryDriver.checkExpiry
  rw [hd]
  split <;> simp

theorem cacheCheck_live (now : Int) (k : String) (d : WrappedValue)
    (st : Cache.CacheState) (hl : d.t = 0 ∨ ¬ d.t < now) :
    Cache.check now k d st = (true, st) := by
  unfold Cache.check
  rw [if_neg]
  rintro ⟨h1, h2⟩
  rcases hl with hl | hl
  · exact h1 hl
  · exact hl h2

/-! ## C8: ttl semantics -/

/-- C8 (amended): for a live key, the legacy `Cache.ttl` with a negative
**or zero** ttl deletes the key through the full `del` path (stats
decremented) and returns `true`, and with a positive ttl re-wraps the entry
with expiry `now + t * 1000`; `MemoryDriver.ttl` never deletes — it returns
`true` and stores expiry `0` (never) for `t = 0` and `now + t * 1000` for any
other `t`, so a negative ttl merely stores an already-past expiry (the entry
is removed only when a later read or sweep notices it) and the stats are
untouched. -/
theorem claim_C8 :
    (∀ (now t : Int) (key : String) (st : Cache.CacheState) (w : WrappedValue),
       key ≠ "" → alookup key st.data = some w → (w.t = 0 ∨ ¬ w.t < now) →
       ((t < 0 ∨ t = 0) →
          Cache.ttl now key (some t) st
            = (true, { st with
                data := aerase key st.data
                stats := { st.stats with
                  vsize := st.stats.vsize - Cache.getValLength st.opts w.v
                  ksize := st.stats.ksize - (key.length : Int)
                  keys := st.stats.keys - 1 } })) ∧
       (0 < t →
          Cache.ttl now key (some t) st
            = (true, { st with
                data := aset key ⟨now + t * 1000, w.v⟩ st.data }))) ∧
    (∀ (now t : Int) (key : String) (st : MemoryDriver.MemState)
       (w : WrappedValue),
       alookup (MemoryDriver.getFullKey st.opts key) st.data = some w →
       (w.t = 0 ∨ ¬ w.t < now) →
       MemoryDriver.ttl now key t st
         = (true, { st with
             data := aset (MemoryDriver.getFullKey st.opts key)
               ⟨if t = 0 then 0 else now + t * 1000, w.v⟩ st.data })) := by
  constructor
  · intro now t key st w hk h hl
    constructor
    · intro ht
      have hcond : ¬(t ≠ 0 ∧ t ≥ 0) := by
        rintro ⟨h1, h2⟩
        rcases ht with ht | ht
        · omega
        · exact h1 ht
      simp only [Cache.ttl, Option.getD_some, if_neg hk, h,
        cacheCheck_live now key w st hl, if_neg hcond]
      simp [Cache.del, Cache.delStep, h]
    · intro ht
      have hcond : t ≠ 0 ∧ t ≥ 0 := ⟨by omega, by omega⟩
      simp only [Cache.ttl, Option.getD_some, if_neg hk, h,
        cacheCheck_live now key w st hl, if_pos hcond]
      have ht0 : t ≠ 0 := by omega
      simp [Cache.wrapL, ht0]
  · intro now t key st w h hl
    simp only [MemoryDriver.ttl, h, checkExpiry_live now _ w st hl]
    simp [MemoryDriver.wrap]

/-- A driver state (default options) holding one live, never-expiring
entry. -/
def c8wDrvSt : MemoryDriver.MemState :=
  ⟨[("k", ⟨0, JSVal.vStr "x"⟩)], ⟨0, 0, 1, 1, 1⟩, [], memDefOpts⟩

/-- Witness for C8: a negative ttl deletes the concrete live key in the
legacy cache but only stores a past expiry in the driver. -/
theorem claim_C8_witness :
    Cache.ttl 2000 "k" (some (-5)) c8cexSt
      = (true, { c8cexSt with
          data := aerase "k" c8cexSt.data
          stats := { c8cexSt.stats with
            vsize := c8cexSt.stats.vsize
              - Cache.getValLength c8cexSt.opts (JSVal.vStr "x")
            ksize := c8cexSt.stats.ksize - ("k".length : Int)
            keys := c8cexSt.stats.keys - 1 } }) ∧
    MemoryDriver.ttl 2000 "k" (-5) c8wDrvSt
      = (true, { c8wDrvSt with
          data := aset "k" ⟨if (-5 : Int) = 0 then 0 else 2000 + (-5) * 1000,
            JSVal.vStr "x"⟩ c8wDrvSt.data }) :=
  ⟨(claim_C8.1 2000 (-5) "k" c8cexSt ⟨0, JSVal.vStr "x"⟩ (by decide) rfl
      (Or.inl rfl)).1 (Or.inl (by decide)),
   claim_C8.2 2000 (-5) "k" c8wDrvSt ⟨0, JSVal.vStr "x"⟩ rfl (Or.inl rfl)⟩

/-! ## C9: tagging -/

theorem alookup_aset_ne {α : Type} (k k2 : String) (v : α)
    (l : List (String × α)) (h : k2 ≠ k) :
    alookup k2 (aset k v l) = alookup k2 l := by
  have hk : ¬ k = k2 := fun hc => h hc.symm
  induction l with
  | nil => simp [aset, alookup, hk]
  | cons e rest ih =>
    obtain ⟨k1, v1⟩ := e
    by_cases he : k1 = k
    · subst he
      simp [aset, alookup, hk]
    · by_cases he2 : k1 = k2
      · simp [aset, alookup, he, he2, h]
      · simp [aset, alookup, he, he2, ih]

theorem alookup_append_of_none {α : Type} (k : String)
    (l1 l2 : List (String × α)) (h : alookup k l1 = none) :
    alookup k (l1 ++ l2) = alookup k l2 := by
  induction l1 with
  | nil => simp
  | cons e rest ih =>
    by_cases he : e.1 = k
    · simp [alookup, he] at h
    · simp [alookup, he] at h ⊢
      exact ih h

theorem addToSet_mem_self (k : String) (l : List String) :
    k ∈ addToSet k l := by
  unfold addToSet
  split
  · assumption
  · simp

/-- The step of the tag-index fold of `tag`: add `fk` to the (possibly
fresh) set of the tag `t`. -/
def tagStep (fk : String) (acc : List (String × List String)) (t : String) :
    List (String × List String) :=
  match alookup t acc with
  | some ks => aset t (addToSet fk ks) acc
  | none => acc ++ [(t, [fk])]

theorem tagStep_preserve (fk t t2 : String)
    (acc : List (String × List String)) (ks : List String)
    (h : alookup t acc = some ks) (hm : fk ∈ ks) :
    ∃ ks2, alookup t (tagStep fk acc t2) = some ks2 ∧ fk ∈ ks2 := by
  unfold tagStep
  by_cases he : t = t2
  · subst he
    rw [h]
    exact ⟨addToSet fk ks, alookup_aset_self t _ acc, addToSet_mem_self fk ks⟩
  · cases h2 : alookup t2 acc with
    | some ks1 =>
      exact ⟨ks, by rw [alookup_aset_ne t2 t _ acc he, h], hm⟩
    | none =>
      exact ⟨ks, alookup_append_left t acc _ ks h, hm⟩

theorem tagStep_adds (fk t : String) (acc : List (String × List String)) :
    ∃ ks, alookup t (tagStep fk acc t) = some ks ∧ fk ∈ ks := by
  unfold tagStep
  cases h2 : alookup t acc with
  | some ks1 =>
    exact ⟨addToSet fk ks1, alookup_aset_self t _ acc, addToSet_mem_self fk ks1⟩
  | none =>
    refine ⟨[fk], ?_, by simp⟩
    rw [alookup_append_of_none t acc _ h2]
    simp [alookup]

theorem tagFold_preserve (fk t : String) :
    ∀ (tagNames : List String) (acc : List (String × List String))
      (ks : List String),
      alookup t acc = some ks → fk ∈ ks →
      ∃ ks2, alookup t (tagNames.foldl (tagStep fk) acc) = some ks2 ∧ fk ∈ ks2 := by
  intro tagNames
  induction tagNames with
  | nil => intro acc ks h hm; exact ⟨ks, h, hm⟩
  | cons t1 rest ih =>
    intro acc ks h hm
    rw [List.foldl_cons]
    obtain ⟨ks2, hks2, hm2⟩ := tagStep_preserve fk t t1 acc ks h hm
    exact ih (tagStep fk acc t1) ks2 hks2 hm2

theorem tagFold_mem (fk : String) :
    ∀ (tagNames : List String) (acc : List (String × List String)) (t : String),
      t ∈ tagNames →
      ∃ ks, alookup t (tagNames.foldl (tagStep fk) acc) = some ks ∧ fk ∈ ks := by
  intro tagNames
  induction tagNames with
  | nil => intro acc t ht; simp at ht
  | cons t0 rest ih =>
    intro acc t ht
    rw [List.foldl_cons]
    by_cases hr : t ∈ rest
    · exact ih (tagStep fk acc t0) t hr
    · have ht0 : t = t0 := by
        rcases List.mem_cons.mp ht with h | h
        · exact h
        · exact absurd h hr
      subst ht0
      obtain ⟨ks, hks, hmem⟩ := tagStep_adds fk t acc
      exact tagFold_preserve fk t rest (tagStep fk acc t) ks hks hmem

/-- C9 (amended): `tag(key, tags)` returns `false` exactly when the key is
not **physically present** in the store — the expiry timestamp is never
consulted (the method does not even read the clock), so an expired-but-unswept
entry can still be tagged; on success it returns `true`, leaves the data
untouched, and adds the full key to each named tag's set, creating the set on
first use. -/
theorem claim_C9 :
    ∀ (key : String) (tagNames : List String) (st : MemoryDriver.MemState),
      ((MemoryDriver.tag key tagNames st).1 = false ↔
        alookup (MemoryDriver.getFullKey st.opts key) st.data = none) ∧
      ((alookup (MemoryDriver.getFullKey st.opts key) st.data).isSome = true →
        (MemoryDriver.tag key tagNames st).1 = true ∧
        ((MemoryDriver.tag key tagNames st).2).data = st.data ∧
        ∀ t ∈ tagNames,
          ∃ ks,
            alookup t ((MemoryDriver.tag key tagNames st).2).tags = some ks ∧
            MemoryDriver.getFullKey st.opts key ∈ ks) := by
  intro key tagNames st
  by_cases hp : (alookup (MemoryDriver.getFullKey st.opts key) st.data).isSome = true
  · constructor
    · simp only [MemoryDriver.tag, hp, if_true]
      constructor
      · intro hc
        exact absurd hc (by simp)
      · intro hc
        rw [hc] at hp
        simp at hp
    · intro _
      refine ⟨by simp [MemoryDriver.tag, hp], by simp [MemoryDriver.tag, hp], ?_⟩
      intro t ht
      simp only [MemoryDriver.tag, hp, if_true]
      exact tagFold_mem (MemoryDriver.getFullKey st.opts key) tagNames st.tags t ht
  · have hn : alookup (MemoryDriver.getFullKey st.opts key) st.data = none :=
      Option.not_isSome_iff_eq_none.mp hp
    constructor
    · simp [MemoryDriver.tag, hn]
    · intro hc
      exact absurd hc hp

/-- Witness for C9: tagging the physically present (though expired) entry
`k` succeeds and records `k` under tag `t1`. -/
theorem claim_C9_witness :
    (MemoryDriver.tag "k" ["t1"] c9cexSt).1 = true ∧
    ((MemoryDriver.tag "k" ["t1"] c9cexSt).2).data = c9cexSt.data ∧
    ∀ t ∈ ["t1"],
      ∃ ks,
        alookup t ((MemoryDriver.tag "k" ["t1"] c9cexSt).2).tags = some ks ∧
        MemoryDriver.getFullKey c9cexSt.opts "k" ∈ ks :=
  (claim_C9 "k" ["t1"] c9cexSt).2 (by decide)

/-! ## C6: take -/

theorem cacheDel_absent (key : String) (st : Cache.CacheState)
    (h : alookup key st.data = none) : Cache.del [key] st = (0, st) := by
  simp [Cache.del, Cache.delStep, h]

/-- C6 (amended): `take(key)` always returns exactly what `get(key)` returns,
and coincides with `get` followed by `del` whenever the `get` returned a
defined value or left the key physically absent.  (The two differ exactly
when `get` returns `undefined` while the entry physically remains — an
expired entry under `deleteOnExpire = false`, or a stored `undefined` value —
since `take` then skips its delete; the legacy `Cache` has no tag state.) -/
theorem claim_C6 :
    ∀ (now : Int) (key : String) (st : Cache.CacheState),
      (Cache.take now key st).1 = (Cache.get now key st).1 ∧
      (((Cache.get now key st).1.isUndef = false ∨
          alookup key ((Cache.get now key st).2).data = none) →
        Cache.take now key st
          = ((Cache.get now key st).1,
             (Cache.del [key] (Cache.get now key st).2).2)) := by
  intro now key st
  by_cases hu : (Cache.get now key st).1.isUndef = true
  · constructor
    · simp [Cache.take, hu]
    · intro h
      rcases h with h | h
      · rw [hu] at h
        cases h
      · rw [cacheDel_absent key _ h]
        simp [Cache.take, hu]
  · have hu2 : (Cache.get now key st).1.isUndef = false :=
      Bool.not_eq_true _ ▸ Bool.of_not_eq_true hu
    constructor
    · simp [Cache.take, hu2]
    · intro _
      simp [Cache.take, hu2]

/-- The legacy default options: `stdTTL = 0`, `checkPeriod = 600`,
`deleteOnExpire = true`, stats enabled, `maxKeys = -1`, array/object size
constants 40/80. -/
def legacyDefOpts : Cache.CacheOptions := ⟨0, 600, true, true, -1, 40, 80⟩

/-- Witness for C6: on an empty cache, `take` of a missing key returns the
`get` result and the state of `get` followed by the (no-op) `del`. -/
theorem claim_C6_witness :
    (Cache.take 0 "k" (Cache.initState legacyDefOpts)).1
      = (Cache.get 0 "k" (Cache.initState legacyDefOpts)).1 ∧
    Cache.take 0 "k" (Cache.initState legacyDefOpts)
      = ((Cache.get 0 "k" (Cache.initState legacyDefOpts)).1,
         (Cache.del ["k"] (Cache.get 0 "k" (Cache.initState legacyDefOpts)).2).2) :=
  ⟨(claim_C6 0 "k" (Cache.initState legacyDefOpts)).1,
   (claim_C6 0 "k" (Cache.initState legacyDefOpts)).2 (Or.inr rfl)⟩

/-! ## C10: mget versus repeated gets -/

/-- Repeated `get` calls over the requested keys, collecting the defined
results keyed like `mget` does.  This is the specification-side definition
for the refinement claim that `mget` behaves like per-key `get`s. -/
def runGets (now : Int) (ks : List String) (st : MemoryDriver.MemState) :
    List (String × JSVal) × MemoryDriver.MemState :=
  ks.foldl
    (fun acc key =>
      let r := MemoryDriver.get now key acc.2
      match r.1 with
      | some v => (aset key v acc.1, r.2)
      | none => (acc.1, r.2))
    ([], st)

theorem checkExpiry_expired_delete (now : Int) (k : String) (w : WrappedValue)
    (st : MemoryDriver.MemState) (hd : st.opts.deleteOnExpire = true)
    (h1 : w.t ≠ 0) (h2 : w.t < now) :
    MemoryDriver.checkExpiry now k w st
      = (false, { st with
          data := aerase k st.data
          stats := { st.stats with keys := st.stats.keys - 1 } }) := by
  unfold MemoryDriver.checkExpiry
  rw [if_pos ⟨h1, h2⟩, hd]
  simp

/-- C10 (amended): `mget` is extensionally equal to the corresponding
sequence of `get` calls (same final state, and the result contains exactly
the keys whose `get` returned a value); per key, an entry that the expiry
check reports live is a hit that is returned, an expired entry under
`deleteOnExpire = true` is removed and counted as a miss, and an absent key
is a miss.  (When `deleteOnExpire = false` the expiry check reports expired
entries live, so they count as hits and are returned — exactly as repeated
`get`s would.) -/
theorem claim_C10 :
    (∀ (now : Int) (ks : List String) (st : MemoryDriver.MemState),
       MemoryDriver.mget now ks st = runGets now ks st) ∧
    (∀ (now : Int) (key : String) (st : MemoryDriver.MemState)
       (w : WrappedValue),
       alookup (MemoryDriver.getFullKey st.opts key) st.data = some w →
       ((w.t = 0 ∨ ¬ w.t < now) →
          MemoryDriver.mget now [key] st
            = ([(key, MemoryDriver.unwrap w)],
               { st with
                 stats := { st.stats with hits := st.stats.hits + 1 } })) ∧
       (st.opts.deleteOnExpire = true → w.t ≠ 0 → w.t < now →
          MemoryDriver.mget now [key] st
            = ([], { st with
                data := aerase (MemoryDriver.getFullKey st.opts key) st.data
                stats := { st.stats with
                  misses := st.stats.misses + 1
                  keys := st.stats.keys - 1 } }))) ∧
    (∀ (now : Int) (key : String) (st : MemoryDriver.MemState),
       alookup (MemoryDriver.getFullKey st.opts key) st.data = none →
       MemoryDriver.mget now [key] st
         = ([], { st with
             stats := { st.stats with misses := st.stats.misses + 1 } })) := by
  refine ⟨?_, ?_, ?_⟩
  · intro now ks st
    unfold MemoryDriver.mget runGets
    congr 1
    funext acc key
    unfold MemoryDriver.get
    cases h : alookup (MemoryDriver.getFullKey acc.2.opts key) acc.2.data with
    | some w =>
      cases hl : (MemoryDriver.checkExpiry now
          (MemoryDriver.getFullKey acc.2.opts key) w acc.2).1 with
      | true => simp [h, hl]
      | false => simp [h, hl]
    | none => simp [h]
  · intro now key st w h
    constructor
    · intro hl
      simp [MemoryDriver.mget, h, checkExpiry_live now _ w st hl, aset]
    · intro hd h1 h2
      simp [MemoryDriver.mget, h, checkExpiry_expired_delete now _ w st hd h1 h2]
  · intro now key st h
    simp [MemoryDriver.mget, h]

/-- Witness for C10: the three per-key cases at concrete states — a live hit
that is returned, an expired entry that is removed and counted as a miss, and
an absent key counted as a miss. -/
theorem claim_C10_witness :
    MemoryDriver.mget 0 ["k"] c8wDrvSt
      = ([("k", MemoryDriver.unwrap ⟨0, JSVal.vStr "x"⟩)],
         { c8wDrvSt with
           stats := { c8wDrvSt.stats with hits := c8wDrvSt.stats.hits + 1 } }) ∧
    MemoryDriver.mget 2000 ["k"] c9cexSt
      = ([], { c9cexSt with
          data := aerase (MemoryDriver.getFullKey c9cexSt.opts "k") c9cexSt.data
          stats := { c9cexSt.stats with
            misses := c9cexSt.stats.misses + 1
            keys := c9cexSt.stats.keys - 1 } }) ∧
    MemoryDriver.mget 0 ["z"] (MemoryDriver.initState memDefOpts)
      = ([], { MemoryDriver.initState memDefOpts with
          stats := { (MemoryDriver.initState memDefOpts).stats with
            misses := (MemoryDriver.initState memDefOpts).stats.misses + 1 } }) :=
  ⟨(claim_C10.2.1 0 "k" c8wDrvSt ⟨0, JSVal.vStr "x"⟩ rfl).1 (Or.inl rfl),
   (claim_C10.2.1 2000 "k" c9cexSt ⟨1000, JSVal.vStr "x"⟩ rfl).2 rfl
     (by decide) (by decide),
   claim_C10.2.2 0 "z" (MemoryDriver.initState memDefOpts) rfl⟩

/-! ## C1: deleteOnExpire = false -/

theorem getFullKey_empty (opts : MemoryDriver.MemOptions) (key : String)
    (hp : opts.keyPrefix = "") : MemoryDriver.getFullKey opts key = key := by
  simp [MemoryDriver.getFullKey, hp]

theorem stripPrefix_empty (opts : MemoryDriver.MemOptions) (k : String)
    (hp : opts.keyPrefix = "") : MemoryDriver.stripPrefix opts k = k := by
  simp [MemoryDriver.stripPrefix, hp]

theorem keysScan_noDelete (now : Int) :
    ∀ (ks acc : List String) (st : MemoryDriver.MemState),
      st.opts.deleteOnExpire = false →
      (∀ k ∈ ks, (alookup k st.data).isSome = true) →
      MemoryDriver.keysScan now ks acc st = (acc ++ ks, st) := by
  intro ks
  induction ks with
  | nil =>
    intro acc st _ _
    simp [MemoryDriver.keysScan]
  | cons k rest ih =>
    intro acc st hd hk
    obtain ⟨w, hw⟩ := Option.isSome_iff_exists.mp (hk k (by simp))
    unfold MemoryDriver.keysScan
    rw [hw]
    simp only [checkExpiry_noDelete now k w st hd, if_true]
    rw [ih (acc ++ [k]) st hd (fun k2 hk2 => hk k2 (by simp [hk2]))]
    simp

/-- C1 (amended): with `deleteOnExpire = false`, the memory driver treats an
expired entry as **live** on every read path — `get` returns its value and
records a hit, `has` returns `true` and leaves the state untouched, `getTtl`
returns its timestamp and `keys` still lists it — and never removes it; the
legacy `Cache`'s `get` and `has` do report the expired entry as absent
without removing it. -/
theorem claim_C1 :
    (∀ (now : Int) (key : String) (st : MemoryDriver.MemState)
       (w : WrappedValue),
       st.opts.deleteOnExpire = false → st.opts.keyPrefix = "" →
       alookup key st.data = some w → w.t ≠ 0 → w.t < now →
       (MemoryDriver.has now key st).1 = true ∧
       (MemoryDriver.has now key st).2 = st ∧
       (MemoryDriver.get now key st).1 = some (MemoryDriver.unwrap w) ∧
       ((MemoryDriver.get now key st).2).data = st.data ∧
       (MemoryDriver.getTtl now key st).1 = some w.t ∧
       key ∈ (MemoryDriver.keys now none st).1) ∧
    (∀ (now : Int) (key : String) (st : Cache.CacheState) (w : WrappedValue),
       st.opts.deleteOnExpire = false → Cache.checkTTL st.opts = true →
       alookup key st.data = some w → w.t ≠ 0 → w.t < now →
       Cache.has now key st = false ∧
       (Cache.get now key st).1 = JSVal.vUndefined ∧
       ((Cache.get now key st).2).data = st.data) := by
  constructor
  · intro now key st w hd hp h h1 h2
    have hfk : MemoryDriver.getFullKey st.opts key = key :=
      getFullKey_empty st.opts key hp
    refine ⟨?_, ?_, ?_, ?_, ?_, ?_⟩
    · simp [MemoryDriver.has, hfk, h, checkExpiry_noDelete now key w st hd]
    · simp [MemoryDriver.has, hfk, h, checkExpiry_noDelete now key w st hd]
    · simp [MemoryDriver.get, hfk, h, checkExpiry_noDelete now key w st hd]
    · simp [MemoryDriver.get, hfk, h, checkExpiry_noDelete now key w st hd]
    · simp [MemoryDriver.getTtl, hfk, h, checkExpiry_noDelete now key w st hd]
    · unfold MemoryDriver.keys
      rw [keysScan_noDelete now (st.data.map Prod.fst) [] st hd
        (fun k2 hk2 => alookup_isSome_of_mem_keys k2 st.data hk2)]
      simp only [List.nil_append]
      have hmap : (st.data.map Prod.fst).map (MemoryDriver.stripPrefix st.opts)
          = st.data.map Prod.fst := by
        rw [List.map_congr_left (fun k2 _ => stripPrefix_empty st.opts k2 hp)]
        exact List.map_id _
      rw [hmap]
      exact alookup_mem_keys key st.data w h
  · intro now key st w hd hct h h1 h2
    refine ⟨?_, ?_, ?_⟩
    · simp [Cache.has, h, hct, h1]
      omega
    · simp [Cache.get, h, hct, h1, h2, hd]
    · simp [Cache.get, h, hct, h1, h2, hd]

/-- A legacy cache state with `deleteOnExpire = false` and an entry expired
at time 1000 (shared shape with the C6 counterexample state). -/
def c1wLegacySt : Cache.CacheState :=
  ⟨[("k", ⟨1000, JSVal.vStr "x"⟩)], ⟨0, 0, 1, 1, 1⟩,
   ⟨0, 600, false, true, -1, 40, 80⟩⟩

/-- Witness for C1: at the concrete expired entries, the driver read paths
report the entry live while the legacy engine reports it absent, and neither
removes it. -/
theorem claim_C1_witness :
    ((MemoryDriver.has 3000 "k" c1cexSt).1 = true ∧
     (MemoryDriver.has 3000 "k" c1cexSt).2 = c1cexSt ∧
     (MemoryDriver.get 3000 "k" c1cexSt).1
       = some (MemoryDriver.unwrap ⟨2000, JSVal.vStr "x"⟩) ∧
     ((MemoryDriver.get 3000 "k" c1cexSt).2).data = c1cexSt.data ∧
     (MemoryDriver.getTtl 3000 "k" c1cexSt).1 = some 2000 ∧
     "k" ∈ (MemoryDriver.keys 3000 none c1cexSt).1) ∧
    (Cache.has 2000 "k" c1wLegacySt = false ∧
     (Cache.get 2000 "k" c1wLegacySt).1 = JSVal.vUndefined ∧
     ((Cache.get 2000 "k" c1wLegacySt).2).data = c1wLegacySt.data) :=
  ⟨claim_C1.1 3000 "k" c1cexSt ⟨2000, JSVal.vStr "x"⟩ rfl rfl rfl
     (by decide) (by decide),
   claim_C1.2 2000 "k" c1wLegacySt ⟨1000, JSVal.vStr "x"⟩ rfl rfl rfl
     (by decide) (by decide)⟩

/-! ## C3: mset capacity check -/

theorem memSet_ok_of_not_full (now : Int) (key : String) (value : JSVal)
    (ttl : Option Int) (st : MemoryDriver.MemState)
    (h : ¬(st.opts.maxKeys > -1 ∧ st.stats.keys ≥ st.opts.maxKeys)) :
    ∃ st2, MemoryDriver.set now key value ttl st = Except.ok st2 ∧
      st2.opts = st.opts ∧ st2.stats.keys ≤ st.stats.keys + 1 := by
  unfold MemoryDriver.set
  rw [if_neg h]
  refine ⟨_, rfl, rfl, ?_⟩
  cases ho : alookup (MemoryDriver.getFullKey st.opts key) st.data with
  | some w => simp [ho]
  | none => simp [ho]

theorem msetFold_ok (now : Int) :
    ∀ (entries : List (String × JSVal × Option Int))
      (st : MemoryDriver.MemState),
      st.opts.maxKeys > -1 →
      st.stats.keys + (entries.length : Int) < st.opts.maxKeys →
      ∃ st2,
        entries.foldlM (fun s e => MemoryDriver.set now e.1 e.2.1 e.2.2 s) st
          = Except.ok st2 := by
  intro entries
  induction entries with
  | nil =>
    intro st _ _
    exact ⟨st, rfl⟩
  | cons e rest ih =>
    intro st hb hlt
    simp only [List.length_cons] at hlt
    obtain ⟨st2, hset, hopts, hkeys⟩ :=
      memSet_ok_of_not_full now e.1 e.2.1 e.2.2 st
        (by rintro ⟨_, hge⟩; push_cast at hlt; omega)
    obtain ⟨st3, hfold⟩ := ih st2 (by rw [hopts]; exact hb)
      (by rw [hopts]; push_cast at hlt ⊢; omega)
    refine ⟨st3, ?_⟩
    rw [List.foldlM_cons, hset]
    simpa using hfold

/-- C3 (amended): for the legacy `Cache`, `mset` counts the batch entries
whose key is not yet present (per occurrence) and — before writing any
entry — accepts exactly when the stats key count plus that number does not
exceed a positive `maxKeys`; `MemoryDriver.mset` instead accepts exactly when
the stats key count plus the **total batch length** is strictly below
`maxKeys`, so it also rejects batches that merely overwrite existing keys. -/
theorem claim_C3 :
    (∀ (now : Int) (entries : List (String × JSVal × Option Int))
       (st : Cache.CacheState), st.opts.maxKeys > 0 →
       ((∃ st2, Cache.mset now entries st = Except.ok st2) ↔
         st.stats.keys + Cache.newKeysCount entries st.data
           ≤ st.opts.maxKeys)) ∧
    (∀ (now : Int) (entries : List (String × JSVal × Option Int))
       (st : MemoryDriver.MemState), st.opts.maxKeys > -1 →
       ((∃ st2, MemoryDriver.mset now entries st = Except.ok st2) ↔
         st.stats.keys + (entries.length : Int) < st.opts.maxKeys)) := by
  constructor
  · intro now entries st hb
    unfold Cache.mset
    by_cases hc : st.opts.maxKeys ≠ 0 ∧ st.opts.maxKeys > -1 ∧
        st.stats.keys + Cache.newKeysCount entries st.data > st.opts.maxKeys
    · rw [if_pos hc]
      constructor
      · rintro ⟨st2, hst2⟩
        simp at hst2
      · intro hle
        exact absurd hle (by omega)
    · rw [if_neg hc]
      have hnc : st.stats.keys + Cache.newKeysCount entries st.data
          ≤ st.opts.maxKeys := by
        by_contra hgt
        exact hc ⟨by omega, by omega, by omega⟩
      exact ⟨fun _ => hnc, fun _ => ⟨_, rfl⟩⟩
  · intro now entries st hb
    unfold MemoryDriver.mset
    by_cases hc : st.opts.maxKeys > -1 ∧
        st.stats.keys + (entries.length : Int) ≥ st.opts.maxKeys
    · rw [if_pos hc]
      constructor
      · rintro ⟨st2, hst2⟩
        simp at hst2
      · intro hlt
        exact absurd hlt (by omega)
    · rw [if_neg hc]
      have hlt : st.stats.keys + (entries.length : Int) < st.opts.maxKeys := by
        by_contra hge
        exact hc ⟨hb, by omega⟩
      exact ⟨fun _ => hlt, fun _ => msetFold_ok now entries st hb hlt⟩

/-- A bounded (`maxKeys = 2`) legacy cache state holding one live key `a`. -/
def c3wSt : Cache.CacheState :=
  ⟨[("a", ⟨0, JSVal.vNum 1⟩)], ⟨0, 0, 1, 1, 8⟩, ⟨0, 600, true, true, 2, 40, 80⟩⟩

/-- Witness for C3: the concrete overwrite-only batch is accepted by the
legacy engine (projected total 1 of max 2) and its acceptance criterion
holds, while the driver's criterion fires on the concrete full store. -/
theorem claim_C3_witness :
    ((∃ st2, Cache.mset 0 [("a", JSVal.vNum 9, none)] c3wSt = Except.ok st2) ↔
      c3wSt.stats.keys
          + Cache.newKeysCount [("a", JSVal.vNum 9, none)] c3wSt.data
        ≤ c3wSt.opts.maxKeys) ∧
    ((∃ st2, MemoryDriver.mset 0 [("a", JSVal.vNum 9, none)] c3cexSt
        = Except.ok st2) ↔
      c3cexSt.stats.keys
          + (([("a", JSVal.vNum 9, none)] :
              List (String × JSVal × Option Int)).length : Int)
        < c3cexSt.opts.maxKeys) :=
  ⟨claim_C3.1 0 [("a", JSVal.vNum 9, none)] c3wSt (by decide),
   claim_C3.2 0 [("a", JSVal.vNum 9, none)] c3cexSt (by decide)⟩

/-! ## C7: keys enumeration -/

/-- An entry is live at `now` iff its expiry is 0 (never) or not yet past. -/
def liveAt (now : Int) (e : String × WrappedValue) : Bool :=
  e.2.t == 0 || decide (now ≤ e.2.t)

theorem checkExpiry_expired_delete_mk (now : Int) (k : String)
    (w : WrappedValue) (data : List (String × WrappedValue)) (stats : Stats)
    (tags : List (String × List String)) (opts : MemoryDriver.MemOptions)
    (hd : opts.deleteOnExpire = true) (h1 : w.t ≠ 0) (h2 : w.t < now) :
    MemoryDriver.checkExpiry now k w ⟨data, stats, tags, opts⟩
      = (false, ⟨aerase k data, { stats with keys := stats.keys - 1 },
          tags, opts⟩) :=
  checkExpiry_expired_delete now k w ⟨data, stats, tags, opts⟩ hd h1 h2

theorem keysScan_delete (now : Int) :
    ∀ (post pre : List (String × WrappedValue)) (acc : List String)
      (stats : Stats) (tags : List (String × List String))
      (opts : MemoryDriver.MemOptions),
      opts.deleteOnExpire = true →
      ((pre ++ post).map Prod.fst).Nodup →
      ∃ stats2,
        MemoryDriver.keysScan now (post.map Prod.fst) acc
            ⟨pre ++ post, stats, tags, opts⟩
          = (acc ++ (post.filter (liveAt now)).map Prod.fst,
             ⟨pre ++ post.filter (liveAt now), stats2, tags, opts⟩) := by
  intro post
  induction post with
  | nil =>
    intro pre acc stats tags opts hd hnd
    exact ⟨stats, by simp [MemoryDriver.keysScan]⟩
  | cons e rest ih =>
    intro pre acc stats tags opts hd hnd
    obtain ⟨k, w⟩ := e
    rw [List.map_append, List.map_cons] at hnd
    have hkpre : k ∉ pre.map Prod.fst :=
      fun hk => (List.nodup_append.mp hnd).2.2 hk (by simp)
    have hlk : alookup k (pre ++ (k, w) :: rest) = some w := by
      rw [alookup_append_right k pre _ hkpre]
      simp [alookup]
    rw [List.map_cons]
    unfold MemoryDriver.keysScan
    rw [hlk]
    by_cases hlive : liveAt now (k, w) = true
    · have hl : w.t = 0 ∨ ¬ w.t < now := by
        simp [liveAt] at hlive
        omega
      simp only [checkExpiry_live now k w
        ⟨pre ++ (k, w) :: rest, stats, tags, opts⟩ hl, if_true]
      have hnd2 : (((pre ++ [(k, w)]) ++ rest).map Prod.fst).Nodup := by
        rw [← List.append_cons, List.map_append, List.map_cons]
        exact hnd
      obtain ⟨stats2, heq⟩ :=
        ih (pre ++ [(k, w)]) (acc ++ [k]) stats tags opts hd hnd2
      refine ⟨stats2, ?_⟩
      rw [show pre ++ (k, w) :: rest = (pre ++ [(k, w)]) ++ rest from
        List.append_cons pre (k, w) rest]
      rw [heq]
      simp [List.filter_cons, hlive, List.append_assoc]
    · have hlf : liveAt now (k, w) = false := by simpa using hlive
      have hl12 : w.t ≠ 0 ∧ w.t < now := by
        simp [liveAt] at hlf
        omega
      simp only [checkExpiry_expired_delete_mk now k w
        (pre ++ (k, w) :: rest) stats tags opts hd hl12.1 hl12.2]
      have hdata : aerase k (pre ++ (k, w) :: rest) = pre ++ rest := by
        rw [aerase_append_right k pre _ hkpre]
        simp [aerase]
      rw [hdata]
      have hnd2 : ((pre ++ rest).map Prod.fst).Nodup := by
        rw [List.map_append]
        rw [List.nodup_append] at hnd ⊢
        exact ⟨hnd.1, (List.nodup_cons.mp hnd.2.1).2,
          fun a ha hb => hnd.2.2 ha (by simp [hb])⟩
      obtain ⟨stats2, heq⟩ :=
        ih pre acc { stats with keys := stats.keys - 1 } tags opts hd hnd2
      refine ⟨stats2, ?_⟩
      simp only [Bool.false_eq_true, if_false]
      rw [heq]
      simp [List.filter_cons, hlf]

/-- C7 (amended): for the memory driver with `deleteOnExpire = true` (and
distinct stored keys), `keys(pattern?)` returns exactly the stored keys that
are live as of the call — removing the expired ones from the store as a side
effect — filtered, when a non-empty pattern is supplied, by the anchored glob
(`*` = any run of characters, `?` = one character, regex-dot semantics).
When `deleteOnExpire = false` the expiry check reports expired keys live, so
they are returned too, and the legacy `Cache.keys` takes no pattern and
returns every stored key (see the counterexample). -/
theorem claim_C7 :
    ∀ (now : Int) (p : String) (st : MemoryDriver.MemState),
      st.opts.deleteOnExpire = true → st.opts.keyPrefix = "" →
      (st.data.map Prod.fst).Nodup → p ≠ "" →
      ((MemoryDriver.keys now (some p) st).1
        = ((st.data.filter (liveAt now)).map Prod.fst).filter
            (fun k => MemoryDriver.globMatch p.data k.data) ∧
       ((MemoryDriver.keys now (some p) st).2).data
         = st.data.filter (liveAt now)) ∧
      (MemoryDriver.keys now none st).1
        = (st.data.filter (liveAt now)).map Prod.fst := by
  intro now p st hd hp hnd hpne
  obtain ⟨data, stats, tags, opts⟩ := st
  simp only at hd hp hnd ⊢
  obtain ⟨stats2, heq⟩ := keysScan_delete now data [] [] stats tags opts hd
    (by simpa using hnd)
  simp only [List.nil_append] at heq
  have hmap : ∀ ks : List String,
      ks.map (MemoryDriver.stripPrefix opts) = ks := by
    intro ks
    rw [List.map_congr_left (fun k2 _ => stripPrefix_empty opts k2 hp)]
    exact List.map_id _
  refine ⟨⟨?_, ?_⟩, ?_⟩
  · simp only [MemoryDriver.keys, heq, hmap, if_pos hpne]
  · simp only [MemoryDriver.keys, heq, hmap, if_pos hpne]
  · simp only [MemoryDriver.keys, heq, hmap]

/-- A driver state (default options) with two live keys `ab`, `ax` and one
key `cd` expired at time 1000. -/
def c7wSt : MemoryDriver.MemState :=
  ⟨[("ab", ⟨0, JSVal.vNum 1⟩), ("cd", ⟨1000, JSVal.vNum 2⟩),
    ("ax", ⟨0, JSVal.vNum 3⟩)], ⟨0, 0, 3, 6, 24⟩, [], memDefOpts⟩

/-- Witness for C7: at time 2000 with pattern `a*`, the concrete store
returns its live keys matching the glob and drops the expired `cd`. -/
theorem claim_C7_witness :
    ((MemoryDriver.keys 2000 (some "a*") c7wSt).1
      = ((c7wSt.data.filter (liveAt 2000)).map Prod.fst).filter
          (fun k => MemoryDriver.globMatch "a*".data k.data) ∧
     ((MemoryDriver.keys 2000 (some "a*") c7wSt).2).data
       = c7wSt.data.filter (liveAt 2000)) ∧
    (MemoryDriver.keys 2000 none c7wSt).1
      = (c7wSt.data.filter (liveAt 2000)).map Prod.fst :=
  claim_C7 2000 "a*" c7wSt rfl rfl (by decide) (by decide)

/-! ## C4: the stats invariant -/

theorem keySizeSum_append (l1 l2 : List (String × WrappedValue)) :
    keySizeSum (l1 ++ l2) = keySizeSum l1 + keySizeSum l2 := by
  simp [keySizeSum]

theorem valSizeSum_append (l1 l2 : List (String × WrappedValue)) :
    valSizeSum (l1 ++ l2) = valSizeSum l1 + valSizeSum l2 := by
  simp [valSizeSum]

/-- The stats invariant the spec asserts: the `keys` counter equals the
stored entry count, and `ksize`/`vsize` equal the sums of the per-entry size
estimates. -/
def statsInv (st : MemoryDriver.MemState) : Prop :=
  st.stats.keys = (st.data.length : Int) ∧
  st.stats.ksize = keySizeSum st.data ∧
  st.stats.vsize = valSizeSum st.data

theorem runOp_set_inv (now : Int) (key : String) (value : JSVal)
    (ttl : Option Int) (st : MemoryDriver.MemState)
    (hp : st.opts.keyPrefix = "") (hinv : statsInv st) :
    statsInv (runOp st (.opSet now key value ttl)) ∧
    (runOp st (.opSet now key value ttl)).opts = st.opts := by
  obtain ⟨hk, hks, hvs⟩ := hinv
  have hrun : runOp st (.opSet now key value ttl)
      = (match MemoryDriver.set now key value ttl st with
         | .ok st2 => st2
         | .error _ => st) := rfl
  cases hset : MemoryDriver.set now key value ttl st with
  | error e =>
    rw [hrun, hset]
    exact ⟨⟨hk, hks, hvs⟩, rfl⟩
  | ok st2 =>
    rw [hrun, hset]
    show statsInv st2 ∧ st2.opts = st.opts
    unfold MemoryDriver.set at hset
    by_cases hfull : st.opts.maxKeys > -1 ∧ st.stats.keys ≥ st.opts.maxKeys
    · rw [if_pos hfull] at hset
      simp at hset
    · rw [if_neg hfull] at hset
      injection hset with hst2
      subst hst2
      simp only [getFullKey_empty st.opts key hp]
      cases ho : alookup key st.data with
      | some w =>
        simp only [ho, Option.isSome_some, if_true]
        refine ⟨⟨?_, ?_, ?_⟩, by trivial⟩
        · show st.stats.keys
            = ((aset key (MemoryDriver.wrap st.opts now value ttl)
                st.data).length : Int)
          rw [length_aset_some key _ st.data w ho]
          exact hk
        · show st.stats.ksize
            = keySizeSum (aset key (MemoryDriver.wrap st.opts now value ttl)
                st.data)
          rw [keySizeSum_aset_some key _ st.data w ho]
          exact hks
        · show st.stats.vsize
              - MemoryDriver.getValueSize (MemoryDriver.unwrap w)
              + MemoryDriver.getValueSize value
            = valSizeSum (aset key (MemoryDriver.wrap st.opts now value ttl)
                st.data)
          rw [valSizeSum_aset_some key _ st.data w ho, hvs, getValueSize_unwrap]
          rfl
      | none =>
        rw [aset_of_lookup_none key _ st.data ho]
        simp only [ho, Option.isSome_none, Bool.false_eq_true, if_false]
        refine ⟨⟨?_, ?_, ?_⟩, by trivial⟩
        · show st.stats.keys + 1
            = ((st.data
                ++ [(key, MemoryDriver.wrap st.opts now value ttl)]).length : Int)
          simp only [List.length_append, List.length_singleton]
          push_cast
          omega
        · show st.stats.ksize + MemoryDriver.getKeySize key
            = keySizeSum (st.data
                ++ [(key, MemoryDriver.wrap st.opts now value ttl)])
          rw [keySizeSum_append, hks]
          simp [keySizeSum, MemoryDriver.getKeySize]
        · show st.stats.vsize + MemoryDriver.getValueSize value
            = valSizeSum (st.data
                ++ [(key, MemoryDriver.wrap st.opts now value ttl)])
          rw [valSizeSum_append, hvs]
          simp [valSizeSum]
          rfl

theorem delStep_inv (p : Int × MemoryDriver.MemState) (key : String)
    (hp : p.2.opts.keyPrefix = "") (hinv : statsInv p.2) :
    statsInv (MemoryDriver.delStep p key).2 ∧
    (MemoryDriver.delStep p key).2.opts = p.2.opts := by
  obtain ⟨hk, hks, hvs⟩ := hinv
  have hfk := getFullKey_empty p.2.opts key hp
  cases ho : alookup key p.2.data with
  | some w =>
    have hstep : MemoryDriver.delStep p key
        = (p.1 + 1, { p.2 with
            data := aerase key p.2.data
            stats := { p.2.stats with
              vsize := p.2.stats.vsize
                - MemoryDriver.getValueSize (MemoryDriver.unwrap w)
              ksize := p.2.stats.ksize - MemoryDriver.getKeySize key
              keys := p.2.stats.keys - 1 }
            tags := p.2.tags.map (fun q => (q.1, q.2.erase key)) }) := by
      simp [MemoryDriver.delStep, hfk, ho]
    rw [hstep]
    refine ⟨⟨?_, ?_, ?_⟩, rfl⟩
    · show p.2.stats.keys - 1 = ((aerase key p.2.data).length : Int)
      have hlen := length_aerase_some key p.2.data w ho
      omega
    · show p.2.stats.ksize - MemoryDriver.getKeySize key
        = keySizeSum (aerase key p.2.data)
      rw [keySizeSum_aerase_some key p.2.data w ho, hks]
      rfl
    · show p.2.stats.vsize - MemoryDriver.getValueSize (MemoryDriver.unwrap w)
        = valSizeSum (aerase key p.2.data)
      rw [valSizeSum_aerase_some key p.2.data w ho, hvs, getValueSize_unwrap]
  | none =>
    have hstep : MemoryDriver.delStep p key = p := by
      simp [MemoryDriver.delStep, hfk, ho]
    rw [hstep]
    exact ⟨⟨hk, hks, hvs⟩, rfl⟩

theorem delFold_inv :
    ∀ (ks : List String) (p : Int × MemoryDriver.MemState),
      p.2.opts.keyPrefix = "" → statsInv p.2 →
      statsInv (ks.foldl MemoryDriver.delStep p).2 ∧
      (ks.foldl MemoryDriver.delStep p).2.opts = p.2.opts := by
  intro ks
  induction ks with
  | nil => intro p hp hinv; exact ⟨hinv, rfl⟩
  | cons k rest ih =>
    intro p hp hinv
    rw [List.foldl_cons]
    obtain ⟨hinv2, hopts2⟩ := delStep_inv p k hp hinv
    obtain ⟨hinv3, hopts3⟩ := ih (MemoryDriver.delStep p k)
      (by rw [hopts2]; exact hp) hinv2
    exact ⟨hinv3, hopts3.trans hopts2⟩

theorem runOp_inv (st : MemoryDriver.MemState) (op : MemOp)
    (hp : st.opts.keyPrefix = "") (hinv : statsInv st) :
    statsInv (runOp st op) ∧ (runOp st op).opts = st.opts := by
  cases op with
  | opSet now key value ttl => exact runOp_set_inv now key value ttl st hp hinv
  | opDel ks =>
    unfold runOp MemoryDriver.del
    exact delFold_inv ks (0, st) hp hinv

theorem runOps_inv :
    ∀ (ops : List MemOp) (st : MemoryDriver.MemState),
      st.opts.keyPrefix = "" → statsInv st → statsInv (runOps ops st) := by
  intro ops
  induction ops with
  | nil => intro st _ hinv; exact hinv
  | cons op rest ih =>
    intro st hp hinv
    unfold runOps
    rw [List.foldl_cons]
    obtain ⟨hinv2, hopts2⟩ := runOp_inv st op hp hinv
    exact ih (runOp st op) (by rw [hopts2]; exact hp) hinv2

/-- C4 (amended): over every sequence of `set`/`del` operations from an empty
store, the driver stats satisfy the invariant — `keys` equals the entry
count and `ksize`/`vsize` equal the sums of the per-entry size estimates,
decremented once per delete and adjusted once per insert/replace; but the
lazy expiry removal on a read decrements **only** the `keys` counter,
leaving `ksize`/`vsize` unchanged (and hence permanently overstated). -/
theorem claim_C4 :
    (∀ (opts : MemoryDriver.MemOptions) (ops : List MemOp),
       opts.keyPrefix = "" →
       statsInv (runOps ops (MemoryDriver.initState opts))) ∧
    (∀ (now : Int) (key : String) (st : MemoryDriver.MemState)
       (w : WrappedValue),
       st.opts.deleteOnExpire = true → st.opts.keyPrefix = "" →
       alookup key st.data = some w → w.t ≠ 0 → w.t < now →
       ((MemoryDriver.get now key st).2).stats.vsize = st.stats.vsize ∧
       ((MemoryDriver.get now key st).2).stats.ksize = st.stats.ksize ∧
       ((MemoryDriver.get now key st).2).stats.keys = st.stats.keys - 1 ∧
       ((MemoryDriver.get now key st).2).data = aerase key st.data) := by
  constructor
  · intro opts ops hp
    exact runOps_inv ops (MemoryDriver.initState opts) hp
      (by simp [statsInv, MemoryDriver.initState, keySizeSum, valSizeSum])
  · intro now key st w hd hp h h1 h2
    have hfk := getFullKey_empty st.opts key hp
    refine ⟨?_, ?_, ?_, ?_⟩ <;>
      simp [MemoryDriver.get, hfk, h,
        checkExpiry_expired_delete now key w st hd h1 h2]

/-- Witness for C4: the invariant holds after a concrete set/del sequence,
and the concrete lazy expiry of `k` leaves `vsize`/`ksize` behind while
decrementing `keys`. -/
theorem claim_C4_witness :
    statsInv (runOps [.opSet 0 "k" (JSVal.vStr "hi") none, .opDel ["k"],
        .opSet 0 "a" (JSVal.vNum 7) (some 5)]
      (MemoryDriver.initState memDefOpts)) ∧
    (((MemoryDriver.get 2000 "k" c9cexSt).2).stats.vsize
        = c9cexSt.stats.vsize ∧
     ((MemoryDriver.get 2000 "k" c9cexSt).2).stats.ksize
        = c9cexSt.stats.ksize ∧
     ((MemoryDriver.get 2000 "k" c9cexSt).2).stats.keys
        = c9cexSt.stats.keys - 1 ∧
     ((MemoryDriver.get 2000 "k" c9cexSt).2).data
        = aerase "k" c9cexSt.data) :=
  ⟨claim_C4.1 memDefOpts
     [.opSet 0 "k" (JSVal.vStr "hi") none, .opDel ["k"],
      .opSet 0 "a" (JSVal.vNum 7) (some 5)] rfl,
   claim_C4.2 2000 "k" c9cexSt ⟨1000, JSVal.vStr "x"⟩ rfl rfl rfl
     (by decide) (by decide)⟩

end TsCache

